import Mathlib

/-!
Verification of the module artifact cache and integrity layer of vgo
(files cmd/go/internal/modfetch/fetch.go and cache.go), against its
natural-language specification.

The Go code is shallowly embedded: pure fragments become Lean functions,
stateful fragments become explicit state passing, `base.Fatalf` (process
abort) becomes an explicit outcome constructor, and file-system /
standard-error effects become event traces.  External collaborators that
are out of scope for the specification (semantic-version validity,
pseudo-version recognition, hex recognition, the dirhash primitives and
JSON codecs) are parameters of the model, as the specification directs
("external collaborators, only their contracts are specified").
-/

namespace VGo

/-- String utilities: Go `strings.HasPrefix s pre`, expressed on the
underlying character lists so that it evaluates inside the kernel. -/
def strHasPre (s pre : String) : Bool :=
  s.data.take pre.data.length = pre.data

/-- Go `strings.HasSuffix s sfx`. -/
def strHasSfx (s sfx : String) : Bool :=
  s.data.drop (s.data.length - sfx.data.length) = sfx.data ∧ sfx.data.length ≤ s.data.length

/-- Go `strings.TrimSuffix s sfx`: drops the suffix when present. -/
def strTrimSfx (s sfx : String) : String :=
  if strHasSfx s sfx then ⟨s.data.take (s.data.length - sfx.data.length)⟩ else s

/-- Go `rev[:n]` (truncation used by readDiskStatByHash). -/
def strTakeN (s : String) (n : Nat) : String := ⟨s.data.take n⟩

/-- Byte-lexicographic `≤` on strings, the order used by Go `sort.Strings`
(UTF-8 byte order coincides with code-point order). -/
def charListLe : List Char → List Char → Bool
  | [], _ => true
  | _ :: _, [] => false
  | a :: as, b :: bs =>
    if a.toNat < b.toNat then true
    else if b.toNat < a.toNat then false
    else charListLe as bs

/-- String comparison as used by `sort.Strings` in WriteGoSum. -/
def strLe (a b : String) : Bool := charListLe a.data b.data

/-- Module identifier, mirroring `module.Version`: a (path, version) pair. -/
structure Version where
  path : String
  version : String
deriving DecidableEq, Repr

/-- Loaded state of the process-global `goSum` store from fetch.go:
the map content, whether go.sum usage is enabled, and the remembered
go.modverify path ("" when none was present, as in the Go zero value). -/
structure GoSumState where
  m : List (Version × List String)
  enabled : Bool
  modverify : String
deriving DecidableEq, Repr

/-- Lookup in the goSum map: Go `goSum.m[mod]` (absent key reads as nil). -/
def sumLookup : List (Version × List String) → Version → List String
  | [], _ => []
  | (k, hs) :: rest, q => if k = q then hs else sumLookup rest q

/-- Go `goSum.m[mod] = append(goSum.m[mod], h)`: append one hash under a
key, creating the entry when absent. -/
def sumAppend : List (Version × List String) → Version → String → List (Version × List String)
  | [], q, h => [(q, [h])]
  | (k, hs) :: rest, q, h =>
    if k = q then (k, hs ++ [h]) :: rest else (k, hs) :: sumAppend rest q h

/-- Result of scanning the recorded hashes in `checkOneSum`'s loop:
an equal hash was reached first, a differing algorithm-1 hash was
reached first, or the loop fell through. -/
inductive ScanRes where
  | verified
  | found (vh : String)
  | through
deriving DecidableEq, Repr

/-- The loop body of `checkOneSum` (fetch.go): for each recorded vh,
return if it equals h, abort if it is a differing "h1:" hash. -/
def scanHashes (h : String) : List String → ScanRes
  | [] => .through
  | vh :: rest =>
    if h = vh then .verified
    else if strHasPre vh "h1:" then .found vh
    else scanHashes h rest

/-- Observable outcome of one `checkOneSum` call: the store was disabled,
the hash verified, the process aborted on a mismatch (`base.Fatalf`),
the hash was appended after a stderr warning, or appended silently. -/
inductive SumCheck where
  | disabled
  | verified
  | mismatch (vh : String)
  | warned
  | added
deriving DecidableEq, Repr

/-- Model of `checkOneSum(mod, h)` from fetch.go, acting on the loaded
store state and returning the outcome together with the updated state.
The `enabled = false` branch models `initGoSum()` reporting false. -/
def checkOneSum (st : GoSumState) (mod : Version) (h : String) : SumCheck × GoSumState :=
  if st.enabled = false then (.disabled, st)
  else
    match scanHashes h (sumLookup st.m mod) with
    | .verified => (.verified, st)
    | .found vh => (.mismatch vh, st)
    | .through =>
      if sumLookup st.m mod = [] then (.added, { st with m := sumAppend st.m mod h })
      else (.warned, { st with m := sumAppend st.m mod h })

theorem scanHashes_verified_iff (h : String) (hs : List String) :
    scanHashes h hs = .verified ↔
      ∃ pre post, hs = pre ++ h :: post ∧ h ∉ pre ∧
        ∀ vh ∈ pre, strHasPre vh "h1:" = false := by
  induction hs with
  | nil =>
    simp only [scanHashes]
    constructor
    · intro hc; cases hc
    · rintro ⟨pre, post, habs, -, -⟩
      exact absurd habs (by simp)
  | cons vh rest ih =>
    simp only [scanHashes]
    by_cases hveq : h = vh
    · simp only [if_pos hveq]
      constructor
      · intro _
        exact ⟨[], rest, by simp [hveq], by simp, by simp⟩
      · intro _; trivial
    · rw [if_neg hveq]
      by_cases hh1 : strHasPre vh "h1:" = true
      · rw [if_pos hh1]
        constructor
        · intro hc; cases hc
        · rintro ⟨pre, post, heq, hnm, hall⟩
          cases pre with
          | nil =>
            simp only [List.nil_append, List.cons.injEq] at heq
            exact absurd heq.1.symm hveq
          | cons p ps =>
            simp only [List.cons_append, List.cons.injEq] at heq
            have hfp := hall p (List.mem_cons.mpr (Or.inl rfl))
            rw [← heq.1] at hfp
            rw [hh1] at hfp
            simp at hfp
      · rw [if_neg hh1]
        rw [ih]
        constructor
        · rintro ⟨pre, post, heq, hnm, hall⟩
          refine ⟨vh :: pre, post, by simp [heq], ?_, ?_⟩
          · simp only [List.mem_cons, not_or]
            exact ⟨fun hx => hveq hx, hnm⟩
          · intro u hu
            rcases List.mem_cons.mp hu with h1 | h2
            · rw [h1]; simpa using hh1
            · exact hall u h2
        · rintro ⟨pre, post, heq, hnm, hall⟩
          cases pre with
          | nil =>
            simp only [List.nil_append, List.cons.injEq] at heq
            exact absurd heq.1.symm hveq
          | cons p ps =>
            simp only [List.cons_append, List.cons.injEq] at heq
            refine ⟨ps, post, heq.2, ?_, ?_⟩
            · intro hx; exact hnm (List.mem_cons.mpr (Or.inr hx))
            · intro u hu; exact hall u (List.mem_cons.mpr (Or.inr hu))

theorem scanHashes_found_iff (h : String) (hs : List String) :
    (∃ vh, scanHashes h hs = .found vh) ↔
      ∃ pre vh post, hs = pre ++ vh :: post ∧ vh ≠ h ∧ strHasPre vh "h1:" = true ∧
        h ∉ pre ∧ ∀ u ∈ pre, strHasPre u "h1:" = false := by
  induction hs with
  | nil =>
    simp only [scanHashes]
    constructor
    · rintro ⟨vh, hc⟩; cases hc
    · rintro ⟨pre, vh, post, habs, -⟩
      exact absurd habs (by simp)
  | cons w rest ih =>
    simp only [scanHashes]
    by_cases hveq : h = w
    · simp only [if_pos hveq]
      constructor
      · rintro ⟨vh, hc⟩; cases hc
      · rintro ⟨pre, vh, post, heq, hne, hh1, hnm, hall⟩
        cases pre with
        | nil =>
          simp only [List.nil_append, List.cons.injEq] at heq
          exact absurd (hveq.trans heq.1).symm hne
        | cons p ps =>
          simp only [List.cons_append, List.cons.injEq] at heq
          refine absurd ?_ hnm
          rw [hveq, heq.1]
          exact List.mem_cons.mpr (Or.inl rfl)
    · rw [if_neg hveq]
      by_cases hh1 : strHasPre w "h1:" = true
      · rw [if_pos hh1]
        constructor
        · intro _
          exact ⟨[], w, rest, rfl, fun hx => hveq hx.symm, hh1, by simp, by simp⟩
        · intro _; exact ⟨w, rfl⟩
      · rw [if_neg hh1]
        rw [ih]
        constructor
        · rintro ⟨pre, vh, post, heq, hne, hvh1, hnm, hall⟩
          refine ⟨w :: pre, vh, post, by simp [heq], hne, hvh1, ?_, ?_⟩
          · simp only [List.mem_cons, not_or]
            exact ⟨fun hx => hveq hx, hnm⟩
          · intro u hu
            rcases List.mem_cons.mp hu with h1 | h2
            · rw [h1]; simpa using hh1
            · exact hall u h2
        · rintro ⟨pre, vh, post, heq, hne, hvh1, hnm, hall⟩
          cases pre with
          | nil =>
            simp only [List.nil_append, List.cons.injEq] at heq
            rw [heq.1] at hh1
            exact absurd hvh1 hh1
          | cons p ps =>
            simp only [List.cons_append, List.cons.injEq] at heq
            refine ⟨ps, vh, post, heq.2, hne, hvh1, ?_, ?_⟩
            · intro hx; exact hnm (List.mem_cons.mpr (Or.inr hx))
            · intro u hu; exact hall u (List.mem_cons.mpr (Or.inr hu))

theorem scanHashes_through_iff (h : String) (hs : List String) :
    scanHashes h hs = .through ↔
      h ∉ hs ∧ ∀ vh ∈ hs, strHasPre vh "h1:" = false := by
  induction hs with
  | nil => simp [scanHashes]
  | cons w rest ih =>
    simp only [scanHashes]
    by_cases hveq : h = w
    · simp only [if_pos hveq]
      constructor
      · intro hc; cases hc
      · rintro ⟨hnm, -⟩
        refine absurd ?_ hnm
        rw [hveq]
        exact List.mem_cons.mpr (Or.inl rfl)
    · rw [if_neg hveq]
      by_cases hh1 : strHasPre w "h1:" = true
      · rw [if_pos hh1]
        constructor
        · intro hc; cases hc
        · rintro ⟨-, hall⟩
          have := hall w (List.mem_cons.mpr (Or.inl rfl))
          rw [this] at hh1; cases hh1
      · rw [if_neg hh1]
        rw [ih]
        constructor
        · rintro ⟨hnm, hall⟩
          refine ⟨?_, ?_⟩
          · simp only [List.mem_cons, not_or]
            exact ⟨fun hx => hveq hx, hnm⟩
          · intro u hu
            rcases List.mem_cons.mp hu with h1 | h2
            · rw [h1]; simpa using hh1
            · exact hall u h2
        · rintro ⟨hnm, hall⟩
          refine ⟨fun hx => hnm (List.mem_cons.mpr (Or.inr hx)), ?_⟩
          intro u hu; exact hall u (List.mem_cons.mpr (Or.inr hu))

theorem checkOneSum_enabled_eq (st : GoSumState) (mod : Version) (h : String)
    (hen : st.enabled = true) :
    checkOneSum st mod h =
      match scanHashes h (sumLookup st.m mod) with
      | .verified => (.verified, st)
      | .found vh => (.mismatch vh, st)
      | .through =>
        if sumLookup st.m mod = [] then (.added, { st with m := sumAppend st.m mod h })
        else (.warned, { st with m := sumAppend st.m mod h }) := by
  unfold checkOneSum
  rw [if_neg (by rw [hen]; simp)]

/-- C1 (corrected): sequential characterization of `checkOneSum` after the
store is loaded and enabled.  The scan is order-sensitive: it returns
verified exactly when `h` occurs among the recorded hashes before any
differing algorithm-1 ("h1:") hash; it aborts with a mismatch exactly when
a differing algorithm-1 hash occurs before any occurrence of `h`; when `h`
is absent and no recorded hash uses algorithm 1, it appends `h`, with a
warning iff the key already had entries; and the store is unchanged in the
verified and mismatch cases. -/
theorem checkOneSum_characterization (st : GoSumState) (mod : Version) (h : String)
    (hen : st.enabled = true) :
    ((∃ pre post, sumLookup st.m mod = pre ++ h :: post ∧ h ∉ pre ∧
        ∀ vh ∈ pre, strHasPre vh "h1:" = false) ↔
      checkOneSum st mod h = (.verified, st))
    ∧ ((∃ pre vh post, sumLookup st.m mod = pre ++ vh :: post ∧ vh ≠ h ∧
        strHasPre vh "h1:" = true ∧ h ∉ pre ∧ ∀ u ∈ pre, strHasPre u "h1:" = false) ↔
      ∃ vh, checkOneSum st mod h = (.mismatch vh, st))
    ∧ (sumLookup st.m mod ≠ [] → h ∉ sumLookup st.m mod →
        (∀ vh ∈ sumLookup st.m mod, strHasPre vh "h1:" = false) →
      checkOneSum st mod h = (.warned, { st with m := sumAppend st.m mod h }))
    ∧ (sumLookup st.m mod = [] →
      checkOneSum st mod h = (.added, { st with m := sumAppend st.m mod h })) := by
  rw [checkOneSum_enabled_eq st mod h hen]
  refine ⟨?_, ?_, ?_, ?_⟩
  · rw [← scanHashes_verified_iff]
    constructor
    · intro hscan; rw [hscan]
    · intro hres
      rcases hscan : scanHashes h (sumLookup st.m mod) with _ | vh | _
      · rfl
      · rw [hscan] at hres; simp at hres
      · by_cases hnil : sumLookup st.m mod = [] <;> rw [hscan] at hres <;>
          simp [hnil] at hres
  · rw [← scanHashes_found_iff]
    constructor
    · rintro ⟨vh, hscan⟩
      exact ⟨vh, by rw [hscan]⟩
    · rintro ⟨vh, hres⟩
      rcases hscan : scanHashes h (sumLookup st.m mod) with _ | u | _
      · rw [hscan] at hres; simp at hres
      · exact ⟨u, rfl⟩
      · by_cases hnil : sumLookup st.m mod = [] <;> rw [hscan] at hres <;>
          simp [hnil] at hres
  · intro hne hnm hall
    have hscan : scanHashes h (sumLookup st.m mod) = .through :=
      (scanHashes_through_iff h _).mpr ⟨hnm, hall⟩
    rw [hscan]
    simp [hne]
  · intro hnil
    have hscan : scanHashes h (sumLookup st.m mod) = .through :=
      (scanHashes_through_iff h _).mpr (by simp [hnil])
    rw [hscan]
    simp [hnil]

/-- C1 witness: the characterization applied to a concrete enabled store
with no recorded entries; the hash is appended as the first observation. -/
theorem checkOneSum_characterization_witness :
    (GoSumState.mk [] true "").enabled = true ∧
    sumLookup (GoSumState.mk [] true "").m (Version.mk "m.io/a" "v1.0.0") = [] ∧
    checkOneSum (GoSumState.mk [] true "") (Version.mk "m.io/a" "v1.0.0") "h1:AAA" =
      (.added, { GoSumState.mk [] true "" with
        m := sumAppend (GoSumState.mk [] true "").m (Version.mk "m.io/a" "v1.0.0") "h1:AAA" }) :=
  ⟨rfl, by decide,
    (checkOneSum_characterization (GoSumState.mk [] true "")
      (Version.mk "m.io/a" "v1.0.0") "h1:AAA" rfl).2.2.2 (by decide)⟩

/-- C1 counterexample: the claim's order-insensitive reading fails.  With
recorded hashes ["h1:AAA", "h1:BBB"] and h = "h1:BBB", some recorded hash
equals h, yet checkOneSum aborts with a mismatch on the earlier differing
algorithm-1 entry instead of returning with the store unchanged. -/
theorem checkOneSum_claim_counterexample :
    "h1:BBB" ∈ sumLookup [((Version.mk "m.io/a" "v1.0.0"), ["h1:AAA", "h1:BBB"])]
        (Version.mk "m.io/a" "v1.0.0") ∧
    checkOneSum (GoSumState.mk [((Version.mk "m.io/a" "v1.0.0"), ["h1:AAA", "h1:BBB"])] true "")
        (Version.mk "m.io/a" "v1.0.0") "h1:BBB" =
      (.mismatch "h1:AAA",
        GoSumState.mk [((Version.mk "m.io/a" "v1.0.0"), ["h1:AAA", "h1:BBB"])] true "") := by
  decide

/-! ## Lockfile parsing (readGoSum) and serialization (WriteGoSum) -/

/-- Whitespace recognized by Go `strings.Fields` (`unicode.IsSpace`): the
full White_Space property — U+0009..U+000D, U+0020, U+0085, U+00A0,
U+1680, U+2000..U+200A, U+2028, U+2029, U+202F, U+205F and U+3000. -/
def isGoSpace (c : Char) : Bool :=
  (9 ≤ c.toNat && c.toNat ≤ 13) || c.toNat == 32 || c.toNat == 133 || c.toNat == 160 ||
  c.toNat == 0x1680 || (0x2000 ≤ c.toNat && c.toNat ≤ 0x200A) ||
  c.toNat == 0x2028 || c.toNat == 0x2029 || c.toNat == 0x202F ||
  c.toNat == 0x205F || c.toNat == 0x3000

/-- Accumulator pass of Go `strings.Fields`: split into maximal runs of
non-space characters (`acc` holds the current word reversed). -/
def fieldsGo : List Char → List Char → List (List Char)
  | acc, [] => if acc = [] then [] else [acc.reverse]
  | acc, c :: rest =>
    if isGoSpace c then
      if acc = [] then fieldsGo [] rest else acc.reverse :: fieldsGo [] rest
    else fieldsGo (c :: acc) rest

/-- Go `strings.Fields(string(line))` as used by readGoSum. -/
def strFields (s : List Char) : List String :=
  (fieldsGo [] s).map fun cs => ⟨cs⟩

/-- Splitting of the file content at newline bytes, producing one part per
newline plus the final part. -/
def splitOnNL : List Char → List (List Char)
  | [] => [[]]
  | c :: rest =>
    let ps := splitOnNL rest
    if c = '\n' then [] :: ps
    else (c :: ps.headD []) :: ps.tail

/-- The line sequence processed by readGoSum's loop (fetch.go): repeated
`bytes.IndexByte(data, newline)` splitting while data is nonempty, so a
part after the final newline appears only when it is nonempty. -/
def splitNLGo (data : List Char) : List (List Char) :=
  let ps := splitOnNL data
  if ps.getLast? = some [] then ps.dropLast else ps

/-- Line loop of `readGoSum` (fetch.go): blank lines are skipped, lines
with a field count other than 3 are fatal (`none`), and each
`path version hash` triple is appended into the map. -/
def readGoSumLines : List (Version × List String) → List (List Char) →
    Option (List (Version × List String))
  | m, [] => some m
  | m, l :: ls =>
    match strFields l with
    | [] => readGoSumLines m ls
    | [p, v, h] => readGoSumLines (sumAppend m ⟨p, v⟩ h) ls
    | _ => none

/-- Model of `readGoSum(file, data)` from fetch.go, acting on the current
map and returning `none` on the fatal malformed-line diagnostic. -/
def readGoSum (m : List (Version × List String)) (data : List Char) :
    Option (List (Version × List String)) :=
  readGoSumLines m (splitNLGo data)

/-- Modelled from the spec: the ordering used by `module.Sort` (the module
package is outside the given sources): "keys sorted by module ordering
(path lexical then version by semver)"; the semver comparison itself is an
external pure predicate and is a parameter `vle`. -/
def moduleLeB (vle : String → String → Bool) (a b : Version) : Bool :=
  if a.path = b.path then vle a.version b.version else strLe a.path b.path

/-- The propositional form of `strLe`, used with sorting lemmas. -/
def strRel (a b : String) : Prop := strLe a b = true

/-- The propositional form of `moduleLeB`. -/
def moduleRel (vle : String → String → Bool) (a b : Version) : Prop :=
  moduleLeB vle a b = true

instance : DecidableRel strRel := fun a b => instDecidableEqBool (strLe a b) true

instance (vle : String → String → Bool) : DecidableRel (moduleRel vle) :=
  fun a b => instDecidableEqBool (moduleLeB vle a b) true

/-- Go `sort.Strings(list)` in WriteGoSum (any correct sort models it;
the comparison is byte-lexicographic). -/
def sortStringsGo (l : List String) : List String :=
  List.insertionSort strRel l

/-- Go `sort` of the collected module keys in WriteGoSum via
`module.Sort(mods)`. -/
def sortModsGo (vle : String → String → Bool) (l : List Version) : List Version :=
  List.insertionSort (moduleRel vle) l

/-- Content of one output line of WriteGoSum before the newline:
`"path version hash"`. -/
def goSumBody (k : Version) (h : String) : List Char :=
  k.path.data ++ (' ' :: (k.version.data ++ (' ' :: h.data)))

/-- One `"path version hash\n"` output line of WriteGoSum. -/
def goSumLine (k : Version) (h : String) : List Char :=
  goSumBody k h ++ ['\n']

/-- The (key, hash) pairs emitted by WriteGoSum, in emission order:
module keys sorted by module ordering, then each key's hash list sorted
ascending. -/
def emittedPairs (vle : String → String → Bool)
    (m : List (Version × List String)) : List (Version × String) :=
  (sortModsGo vle (m.map Prod.fst)).flatMap
    fun k => (sortStringsGo (sumLookup m k)).map fun h => (k, h)

/-- The serialized go.sum buffer built by WriteGoSum (fetch.go). -/
def writeGoSumBuf (vle : String → String → Bool)
    (m : List (Version × List String)) : List Char :=
  (emittedPairs vle m).flatMap fun kh => goSumLine kh.1 kh.2

/-- Observable file-system events of WriteGoSum. -/
inductive GoSumEv where
  | wroteSum (data : List Char)
  | removedModverify (p : String)
deriving DecidableEq, Repr

/-- Model of `WriteGoSum()` from fetch.go: nothing when the store is
disabled; otherwise serialize, write only when the bytes differ from the
current on-disk content (`cur`, `none` when the file is absent, whose read
error is ignored so absent reads as nil), then remove the remembered
go.modverify file when one was noted at load time. -/
def WriteGoSum (vle : String → String → Bool) (st : GoSumState)
    (cur : Option (List Char)) : List GoSumEv :=
  if st.enabled = false then []
  else
    (if cur.getD [] ≠ writeGoSumBuf vle st.m then [.wroteSum (writeGoSumBuf vle st.m)] else []) ++
    (if st.modverify ≠ "" then [.removedModverify st.modverify] else [])

/-- Cleanliness of a lockfile field: nonempty and free of the whitespace
that `strings.Fields` splits on (newline included). -/
def CleanStr (s : String) : Prop :=
  s.data ≠ [] ∧ ∀ c ∈ s.data, isGoSpace c = false

instance (s : String) : Decidable (CleanStr s) := by
  unfold CleanStr
  infer_instance

instance (l : List String) : Decidable (List.Sorted strRel l) := by
  unfold List.Sorted
  infer_instance

theorem strMk_data (s : String) : String.mk s.data = s := rfl

theorem fieldsGo_word (w : List Char) :
    ∀ acc rest, (∀ c ∈ w, isGoSpace c = false) →
      fieldsGo acc (w ++ rest) = fieldsGo (w.reverse ++ acc) rest := by
  induction w with
  | nil => intro acc rest _; simp
  | cons c cs ih =>
    intro acc rest hw
    have hc : isGoSpace c = false := hw c (List.mem_cons.mpr (Or.inl rfl))
    simp only [List.cons_append, fieldsGo, hc, List.append_eq]
    rw [if_neg (by simp [hc])]
    rw [ih (c :: acc) rest fun d hd => hw d (List.mem_cons.mpr (Or.inr hd))]
    simp

theorem fieldsGo_space (c : Char) (acc rest : List Char)
    (hc : isGoSpace c = true) (hacc : acc ≠ []) :
    fieldsGo acc (c :: rest) = acc.reverse :: fieldsGo [] rest := by
  simp only [fieldsGo, hc]
  rw [if_pos (by simp [hc]), if_neg hacc]

theorem strFields_body (k : Version) (h : String)
    (hp : CleanStr k.path) (hv : CleanStr k.version) (hh : CleanStr h) :
    strFields (goSumBody k h) = [k.path, k.version, h] := by
  unfold strFields goSumBody
  rw [fieldsGo_word k.path.data [] _ hp.2]
  rw [List.append_nil]
  rw [fieldsGo_space ' ' _ _ (by decide) (by simpa using hp.1)]
  rw [fieldsGo_word k.version.data _ _ hv.2]
  rw [List.append_nil]
  rw [fieldsGo_space ' ' _ _ (by decide) (by simpa using hv.1)]
  rw [← List.append_nil h.data]
  rw [fieldsGo_word h.data _ _ hh.2]
  simp only [fieldsGo]
  rw [if_neg (by simp [hh.1])]
  simp [strMk_data]

theorem splitOnNL_ne_nil (data : List Char) : splitOnNL data ≠ [] := by
  cases data with
  | nil => simp [splitOnNL]
  | cons c rest =>
    simp only [splitOnNL]
    by_cases hc : c = '\n' <;> simp [hc]

theorem splitOnNL_append_line (xs rest : List Char) (hxs : ∀ c ∈ xs, c ≠ '\n') :
    splitOnNL (xs ++ '\n' :: rest) = xs :: splitOnNL rest := by
  induction xs with
  | nil => simp [splitOnNL]
  | cons c cs ih =>
    have hc : c ≠ '\n' := hxs c (List.mem_cons.mpr (Or.inl rfl))
    simp only [List.cons_append, splitOnNL, List.append_eq]
    rw [ih fun d hd => hxs d (List.mem_cons.mpr (Or.inr hd))]
    simp [hc]

theorem splitNLGo_append_line (xs rest : List Char) (hxs : ∀ c ∈ xs, c ≠ '\n') :
    splitNLGo (xs ++ '\n' :: rest) = xs :: splitNLGo rest := by
  unfold splitNLGo
  rw [splitOnNL_append_line xs rest hxs]
  have hne : splitOnNL rest ≠ [] := splitOnNL_ne_nil rest
  rcases hps : splitOnNL rest with _ | ⟨y, ys⟩
  · exact absurd hps hne
  · simp only []
    rw [List.getLast?_cons_cons]
    by_cases hl : (y :: ys).getLast? = some []
    · rw [if_pos hl, if_pos hl]
      rw [List.dropLast_cons_of_ne_nil (by simp)]
    · rw [if_neg hl, if_neg hl]

theorem cleanStr_no_nl (s : String) (hs : CleanStr s) : ∀ c ∈ s.data, c ≠ '\n' := by
  intro c hc heq
  have := hs.2 c hc
  rw [heq] at this
  exact absurd this (by decide)

theorem goSumBody_no_nl (k : Version) (h : String)
    (hp : CleanStr k.path) (hv : CleanStr k.version) (hh : CleanStr h) :
    ∀ c ∈ goSumBody k h, c ≠ '\n' := by
  intro c hc
  unfold goSumBody at hc
  simp only [List.mem_append, List.mem_cons] at hc
  rcases hc with h1 | h2 | h3 | h4 | h5
  · exact cleanStr_no_nl k.path hp c h1
  · rw [h2]; decide
  · exact cleanStr_no_nl k.version hv c h3
  · rw [h4]; decide
  · exact cleanStr_no_nl h hh c h5

theorem readGoSum_flatMap (L : List (Version × String)) :
    ∀ m0, (∀ kh ∈ L, CleanStr kh.1.path ∧ CleanStr kh.1.version ∧ CleanStr kh.2) →
    readGoSum m0 (L.flatMap fun kh => goSumLine kh.1 kh.2) =
      some (L.foldl (fun acc kh => sumAppend acc kh.1 kh.2) m0) := by
  induction L with
  | nil => intro m0 _; rfl
  | cons kh L ih =>
    intro m0 hcl
    have hkh := hcl kh (List.mem_cons.mpr (Or.inl rfl))
    have hflat : (kh :: L).flatMap (fun kh => goSumLine kh.1 kh.2) =
        goSumBody kh.1 kh.2 ++ '\n' :: L.flatMap (fun kh => goSumLine kh.1 kh.2) := by
      simp [goSumLine, List.append_assoc]
    rw [hflat]
    unfold readGoSum
    rw [splitNLGo_append_line _ _ (goSumBody_no_nl kh.1 kh.2 hkh.1 hkh.2.1 hkh.2.2)]
    have hbody := strFields_body kh.1 kh.2 hkh.1 hkh.2.1 hkh.2.2
    simp only [readGoSumLines, hbody]
    have : (⟨kh.1.path, kh.1.version⟩ : Version) = kh.1 := rfl
    rw [this]
    rw [List.foldl_cons]
    exact ih (sumAppend m0 kh.1 kh.2) fun e he => hcl e (List.mem_cons.mpr (Or.inr he))

theorem sumLookup_sumAppend (m : List (Version × List String)) (k : Version) (h : String)
    (q : Version) :
    sumLookup (sumAppend m k h) q =
      if k = q then sumLookup m q ++ [h] else sumLookup m q := by
  induction m with
  | nil =>
    simp only [sumAppend, sumLookup]
    by_cases hk : k = q <;> simp [hk]
  | cons e rest ih =>
    rcases e with ⟨k2, hs⟩
    by_cases h2k : k2 = k
    · simp only [sumAppend, if_pos h2k, sumLookup]
      by_cases h2q : k2 = q
      · have hkq : k = q := h2k.symm.trans h2q
        simp [h2q, hkq]
      · have hkq : ¬k = q := fun hx => h2q (h2k.trans hx)
        simp [h2q, hkq]
    · simp only [sumAppend, if_neg h2k, sumLookup]
      by_cases h2q : k2 = q
      · have hkq : ¬k = q := fun hx => h2k (h2q.trans hx.symm)
        simp [h2q, hkq]
      · simp only [if_neg h2q, ih]

theorem sumLookup_foldl (L : List (Version × String)) :
    ∀ (m0 : List (Version × List String)) (q : Version),
    sumLookup (L.foldl (fun acc kh => sumAppend acc kh.1 kh.2) m0) q =
      sumLookup m0 q ++ (L.filter fun kh => decide (kh.1 = q)).map Prod.snd := by
  induction L with
  | nil => intro m0 q; simp
  | cons kh L ih =>
    intro m0 q
    rw [List.foldl_cons, ih]
    rw [sumLookup_sumAppend]
    by_cases hk : kh.1 = q
    · rw [if_pos hk]
      rw [List.filter_cons_of_pos (by simp [hk])]
      simp [List.append_assoc]
    · rw [if_neg hk]
      rw [List.filter_cons_of_neg (by simp [hk])]

theorem sumLookup_eq_nil_of_not_mem (m : List (Version × List String)) (q : Version)
    (hq : q ∉ m.map Prod.fst) : sumLookup m q = [] := by
  induction m with
  | nil => rfl
  | cons e rest ih =>
    rcases e with ⟨k, hs⟩
    simp only [List.map_cons, List.mem_cons, not_or] at hq
    simp only [sumLookup]
    rw [if_neg fun hx => hq.1 hx.symm]
    exact ih hq.2

theorem sumLookup_self (m : List (Version × List String)) (e : Version × List String)
    (hnodup : (m.map Prod.fst).Nodup) (he : e ∈ m) : sumLookup m e.1 = e.2 := by
  induction m with
  | nil => cases he
  | cons e2 rest ih =>
    rcases List.mem_cons.mp he with h1 | h2
    · rw [h1]
      rcases e with ⟨k, hs⟩
      simp [sumLookup]
    · rcases e2 with ⟨k2, hs2⟩
      simp only [sumLookup]
      have hk2 : k2 ∉ rest.map Prod.fst := by
        have := hnodup
        simp only [List.map_cons, List.nodup_cons] at this
        exact this.1
      rw [if_neg ?hne]
      case hne =>
        intro hx
        refine hk2 ?_
        rw [hx]
        exact List.mem_map.mpr ⟨e, h2, rfl⟩
      refine ih ?_ h2
      have := hnodup
      simp only [List.map_cons, List.nodup_cons] at this
      exact this.2

theorem sumLookup_entry (m : List (Version × List String)) (q : Version) :
    sumLookup m q = [] ∨ ∃ e ∈ m, e.1 = q ∧ sumLookup m q = e.2 := by
  induction m with
  | nil => exact Or.inl rfl
  | cons e rest ih =>
    rcases e with ⟨k, hs⟩
    simp only [sumLookup]
    by_cases hk : k = q
    · right
      exact ⟨(k, hs), List.mem_cons.mpr (Or.inl rfl), hk, by rw [if_pos hk]⟩
    · rw [if_neg hk]
      rcases ih with h1 | ⟨e2, he2, hq2, hl2⟩
      · exact Or.inl h1
      · exact Or.inr ⟨e2, List.mem_cons.mpr (Or.inr he2), hq2, hl2⟩

theorem filter_pairs_of_key (S : List String) (k q : Version) :
    (((S.map fun h => (k, h)).filter fun kh => decide (kh.1 = q)).map Prod.snd) =
      if k = q then S else [] := by
  rw [List.filter_map]
  by_cases hk : k = q
  · rw [if_pos hk]
    have : ((fun kh : Version × String => decide (kh.1 = q)) ∘ fun h => (k, h)) =
        fun _ => true := by
      funext h; simp [hk]
    rw [this, List.filter_true, List.map_map]
    simp
  · rw [if_neg hk]
    have : ((fun kh : Version × String => decide (kh.1 = q)) ∘ fun h => (k, h)) =
        fun _ => false := by
      funext h; simp [hk]
    rw [this]
    simp

theorem filter_flatMap_pairs (S : Version → List String) (q : Version) :
    ∀ ks : List Version,
    (((ks.flatMap fun k => (S k).map fun h => (k, h)).filter
        fun kh => decide (kh.1 = q)).map Prod.snd) =
      (ks.filter fun k => decide (k = q)).flatMap S := by
  intro ks
  induction ks with
  | nil => rfl
  | cons k ks ih =>
    rw [List.flatMap_cons, List.filter_append, List.map_append]
    rw [filter_pairs_of_key (S k) k q, ih]
    by_cases hk : k = q
    · rw [if_pos hk, List.filter_cons_of_pos (by simp [hk]), List.flatMap_cons]
    · rw [if_neg hk, List.filter_cons_of_neg (by simp [hk])]
      simp

theorem filter_key_of_nodup (q : Version) :
    ∀ ks : List Version, ks.Nodup → q ∈ ks →
      (ks.filter fun k => decide (k = q)) = [q] := by
  intro ks
  induction ks with
  | nil => intro _ h; cases h
  | cons k ks ih =>
    intro hnd hq
    have hnd2 := List.nodup_cons.mp hnd
    by_cases hk : k = q
    · rw [List.filter_cons_of_pos (by simp [hk]), hk]
      have : (ks.filter fun k => decide (k = q)) = [] := by
        rw [List.filter_eq_nil_iff]
        intro a ha
        simp only [decide_eq_true_eq]
        intro hx
        rw [hx] at ha
        rw [hk] at hnd2
        exact hnd2.1 ha
      rw [this]
    · rw [List.filter_cons_of_neg (by simp [hk])]
      rcases List.mem_cons.mp hq with h1 | h2
      · exact absurd h1.symm hk
      · exact ih hnd2.2 h2

/-- C4 (corrected): lockfile round-trip for canonical maps.  For every map
whose keys are distinct with whitespace-free nonempty fields, whose hash
lists are nonempty with whitespace-free entries, and whose hash lists are
already in ascending order, parsing the serialized lockfile returns a map
with exactly the same lookups. -/
theorem lockfile_round_trip (vle : String → String → Bool)
    (m : List (Version × List String))
    (hnodup : (m.map Prod.fst).Nodup)
    (hclean : ∀ e ∈ m, CleanStr e.1.path ∧ CleanStr e.1.version ∧ ∀ h ∈ e.2, CleanStr h)
    (hne : ∀ e ∈ m, e.2 ≠ [])
    (hsorted : ∀ e ∈ m, List.Sorted strRel e.2) :
    ∃ m2, readGoSum [] (writeGoSumBuf vle m) = some m2 ∧
      ∀ q, sumLookup m2 q = sumLookup m q := by
  have hkeysperm : (sortModsGo vle (m.map Prod.fst)).Perm (m.map Prod.fst) :=
    List.perm_insertionSort _ _
  have hcleanL : ∀ kh ∈ emittedPairs vle m,
      CleanStr kh.1.path ∧ CleanStr kh.1.version ∧ CleanStr kh.2 := by
    intro kh hkh
    unfold emittedPairs at hkh
    rcases List.mem_flatMap.mp hkh with ⟨k, hk, hkh2⟩
    rcases List.mem_map.mp hkh2 with ⟨h, hh, hpair⟩
    have hkmem : k ∈ m.map Prod.fst := hkeysperm.mem_iff.mp hk
    rcases List.mem_map.mp hkmem with ⟨e, he, hek⟩
    have hce := hclean e he
    have hhs : h ∈ sumLookup m k := by
      have : (sortStringsGo (sumLookup m k)).Perm (sumLookup m k) :=
        List.perm_insertionSort _ _
      exact this.mem_iff.mp hh
    have hch : CleanStr h := by
      rcases sumLookup_entry m k with h0 | ⟨e2, he2, hq2, hl2⟩
      · rw [h0] at hhs; cases hhs
      · rw [hl2] at hhs
        exact (hclean e2 he2).2.2 h hhs
    rw [← hpair]
    exact ⟨by rw [← hek]; exact hce.1, by rw [← hek]; exact hce.2.1, hch⟩
  refine ⟨(emittedPairs vle m).foldl (fun acc kh => sumAppend acc kh.1 kh.2) [], ?_, ?_⟩
  · unfold writeGoSumBuf
    exact readGoSum_flatMap (emittedPairs vle m) [] hcleanL
  · intro q
    rw [sumLookup_foldl]
    unfold emittedPairs
    rw [filter_flatMap_pairs]
    have hnodup2 : (sortModsGo vle (m.map Prod.fst)).Nodup :=
      hkeysperm.symm.nodup hnodup
    by_cases hq : q ∈ m.map Prod.fst
    · rw [filter_key_of_nodup q _ hnodup2 (hkeysperm.mem_iff.mpr hq)]
      rcases List.mem_map.mp hq with ⟨e, he, hek⟩
      have hlk : sumLookup m q = e.2 := by
        rw [← hek]
        exact sumLookup_self m e hnodup he
      rw [List.flatMap_cons, List.flatMap_nil, List.append_nil]
      simp only [sumLookup, List.nil_append]
      unfold sortStringsGo
      rw [hlk]
      exact List.Sorted.insertionSort_eq (hsorted e he)
    · rw [List.filter_eq_nil_iff.mpr ?hnone]
      case hnone =>
        intro k hk
        simp only [decide_eq_true_eq]
        intro hx
        rw [hx] at hk
        exact hq (hkeysperm.mem_iff.mp hk)
      rw [sumLookup_eq_nil_of_not_mem m q hq]
      rfl

/-- C4 witness: the round trip applied to a concrete two-entry map. -/
theorem lockfile_round_trip_witness :
    (([(Version.mk "m.io/a" "v1.0.0", ["h1:AAA"]),
       (Version.mk "m.io/b" "v2.0.0", ["h1:BBB", "h1:CCC"])].map
        (Prod.fst (α := Version) (β := List String))).Nodup) ∧
    (∃ m2, readGoSum [] (writeGoSumBuf strLe
        [(Version.mk "m.io/a" "v1.0.0", ["h1:AAA"]),
         (Version.mk "m.io/b" "v2.0.0", ["h1:BBB", "h1:CCC"])]) = some m2 ∧
      ∀ q, sumLookup m2 q = sumLookup
        [(Version.mk "m.io/a" "v1.0.0", ["h1:AAA"]),
         (Version.mk "m.io/b" "v2.0.0", ["h1:BBB", "h1:CCC"])] q) :=
  ⟨by decide,
    lockfile_round_trip strLe
      [(Version.mk "m.io/a" "v1.0.0", ["h1:AAA"]),
       (Version.mk "m.io/b" "v2.0.0", ["h1:BBB", "h1:CCC"])]
      (by decide)
      (by decide)
      (by decide)
      (by decide)⟩

/-- C4 counterexample: the claim fails for maps whose hash lists are not
already sorted.  Serializing sorts each hash list, and parsing preserves
file order, so a key with hashes ["h1:b", "h1:a"] reads back as
["h1:a", "h1:b"], not the original map. -/
theorem lockfile_round_trip_counterexample :
    readGoSum [] (writeGoSumBuf strLe [(Version.mk "m.io/a" "v1.0.0", ["h1:b", "h1:a"])]) =
      some [(Version.mk "m.io/a" "v1.0.0", ["h1:a", "h1:b"])] ∧
    sumLookup [(Version.mk "m.io/a" "v1.0.0", ["h1:a", "h1:b"])]
        (Version.mk "m.io/a" "v1.0.0") ≠
      sumLookup [(Version.mk "m.io/a" "v1.0.0", ["h1:b", "h1:a"])]
        (Version.mk "m.io/a" "v1.0.0") := by
  decide

theorem charToNat_inj (a b : Char) (h : a.toNat = b.toNat) : a = b := by
  unfold Char.toNat at h
  exact Char.eq_of_val_eq (UInt32.toNat.inj h)

theorem charListLe_total : ∀ as bs : List Char,
    charListLe as bs = true ∨ charListLe bs as = true := by
  intro as
  induction as with
  | nil => intro bs; left; rfl
  | cons a as ih =>
    intro bs
    cases bs with
    | nil => right; rfl
    | cons b bs =>
      simp only [charListLe]
      by_cases h1 : a.toNat < b.toNat
      · left; rw [if_pos h1]
      · by_cases h2 : b.toNat < a.toNat
        · right; rw [if_pos h2]
        · rw [if_neg h1, if_neg h2, if_neg h2, if_neg h1]
          exact ih bs

theorem charListLe_trans : ∀ as bs cs : List Char,
    charListLe as bs = true → charListLe bs cs = true → charListLe as cs = true := by
  intro as
  induction as with
  | nil => intro bs cs _ _; rfl
  | cons a as ih =>
    intro bs cs hab hbc
    cases bs with
    | nil => simp [charListLe] at hab
    | cons b bs =>
      cases cs with
      | nil => simp [charListLe] at hbc
      | cons c cs =>
        simp only [charListLe] at hab hbc ⊢
        by_cases h1 : a.toNat < b.toNat
        · by_cases h2 : b.toNat < c.toNat
          · rw [if_pos (by omega)]
          · by_cases h3 : c.toNat < b.toNat
            · rw [if_neg h2, if_pos h3] at hbc; simp at hbc
            · rw [if_pos (by omega)]
        · by_cases h4 : b.toNat < a.toNat
          · rw [if_neg h1, if_pos h4] at hab; simp at hab
          · rw [if_neg h1, if_neg h4] at hab
            by_cases h2 : b.toNat < c.toNat
            · rw [if_pos (by omega)]
            · by_cases h3 : c.toNat < b.toNat
              · rw [if_neg h2, if_pos h3] at hbc; simp at hbc
              · rw [if_neg h2, if_neg h3] at hbc
                rw [if_neg (by omega), if_neg (by omega)]
                exact ih bs cs hab hbc

theorem charListLe_antisymm : ∀ as bs : List Char,
    charListLe as bs = true → charListLe bs as = true → as = bs := by
  intro as
  induction as with
  | nil =>
    intro bs h1 h2
    cases bs with
    | nil => rfl
    | cons b bs => simp [charListLe] at h2
  | cons a as ih =>
    intro bs h1 h2
    cases bs with
    | nil => simp [charListLe] at h1
    | cons b bs =>
      simp only [charListLe] at h1 h2
      by_cases hab : a.toNat < b.toNat
      · rw [if_neg (by omega), if_pos (by omega)] at h2; simp at h2
      · by_cases hba : b.toNat < a.toNat
        · rw [if_neg hab, if_pos hba] at h1; simp at h1
        · rw [if_neg hab, if_neg hba] at h1
          rw [if_neg hba, if_neg hab] at h2
          rw [charToNat_inj a b (by omega), ih bs h1 h2]

theorem strLe_total (a b : String) : strLe a b = true ∨ strLe b a = true :=
  charListLe_total a.data b.data

theorem strLe_trans (a b c : String) (h1 : strLe a b = true) (h2 : strLe b c = true) :
    strLe a c = true :=
  charListLe_trans a.data b.data c.data h1 h2

theorem strLe_antisymm (a b : String) (h1 : strLe a b = true) (h2 : strLe b a = true) :
    a = b := by
  have := charListLe_antisymm a.data b.data h1 h2
  rw [← strMk_data a, ← strMk_data b, this]

theorem sumLookup_perm :
    ∀ {m1 m2 : List (Version × List String)}, m1.Perm m2 →
      (m1.map Prod.fst).Nodup → ∀ q, sumLookup m1 q = sumLookup m2 q := by
  intro m1 m2 hperm
  induction hperm with
  | nil => intro _ q; rfl
  | cons x h ih =>
    intro hnd q
    rcases x with ⟨k, hs⟩
    simp only [sumLookup]
    by_cases hk : k = q
    · rw [if_pos hk, if_pos hk]
    · rw [if_neg hk, if_neg hk]
      refine ih ?_ q
      simp only [List.map_cons, List.nodup_cons] at hnd
      exact hnd.2
  | swap x y l =>
    intro hnd q
    rcases x with ⟨kx, hx⟩
    rcases y with ⟨ky, hy⟩
    have hne : ky ≠ kx := by
      simp only [List.map_cons, List.nodup_cons, List.mem_cons] at hnd
      exact fun hx2 => hnd.1 (Or.inl hx2)
    simp only [sumLookup]
    by_cases hky : ky = q
    · have hkx : ¬kx = q := fun hx2 => hne (hky.trans hx2.symm)
      rw [if_pos hky, if_neg hkx, if_pos hky]
    · rw [if_neg hky, if_neg hky]
  | trans h1 h2 ih1 ih2 =>
    intro hnd q
    rw [ih1 hnd q]
    refine ih2 ?_ q
    exact (h1.map Prod.fst).nodup hnd

instance : IsTotal String strRel := ⟨strLe_total⟩

instance : IsTrans String strRel := ⟨strLe_trans⟩

instance : IsAntisymm String strRel := ⟨strLe_antisymm⟩

theorem version_ext (a b : Version) (hp : a.path = b.path) (hv : a.version = b.version) :
    a = b := by
  cases a; cases b
  simp only [Version.mk.injEq]
  exact ⟨hp, hv⟩

theorem flatMap_perm_congr {α β : Type} (f g : α → List β) :
    ∀ l : List α, (∀ e ∈ l, (f e).Perm (g e)) → (l.flatMap f).Perm (l.flatMap g) := by
  intro l
  induction l with
  | nil => intro _; exact List.Perm.refl []
  | cons e l ih =>
    intro h
    rw [List.flatMap_cons, List.flatMap_cons]
    exact List.Perm.append (h e (List.mem_cons.mpr (Or.inl rfl)))
      (ih fun e2 he2 => h e2 (List.mem_cons.mpr (Or.inr he2)))

/-- Order of the emitted (key, hash) pairs: keys by module ordering, and
hashes ascending within an equal key. -/
def emitRel (vle : String → String → Bool) (a b : Version × String) : Prop :=
  moduleRel vle a.1 b.1 ∧ (a.1 = b.1 → strRel a.2 b.2)

theorem moduleRel_total (vle : String → String → Bool)
    (hvtot : ∀ a b, vle a b = true ∨ vle b a = true) (a b : Version) :
    moduleRel vle a b ∨ moduleRel vle b a := by
  unfold moduleRel moduleLeB
  by_cases hp : a.path = b.path
  · rw [if_pos hp, if_pos hp.symm]
    exact hvtot a.version b.version
  · rw [if_neg hp, if_neg fun hx => hp hx.symm]
    exact strLe_total a.path b.path

theorem moduleRel_trans (vle : String → String → Bool)
    (hvtrans : ∀ a b c, vle a b = true → vle b c = true → vle a c = true)
    (a b c : Version) (hab : moduleRel vle a b) (hbc : moduleRel vle b c) :
    moduleRel vle a c := by
  unfold moduleRel moduleLeB at hab hbc ⊢
  by_cases hpab : a.path = b.path
  · rw [if_pos hpab] at hab
    by_cases hpbc : b.path = c.path
    · rw [if_pos hpbc] at hbc
      rw [if_pos (hpab.trans hpbc)]
      exact hvtrans a.version b.version c.version hab hbc
    · rw [if_neg hpbc] at hbc
      rw [if_neg fun hx => hpbc (hpab.symm.trans hx)]
      rw [hpab]
      exact hbc
  · rw [if_neg hpab] at hab
    by_cases hpbc : b.path = c.path
    · rw [if_pos hpbc] at hbc
      rw [if_neg fun hx => hpab (hx.trans hpbc.symm)]
      rw [← hpbc]
      exact hab
    · rw [if_neg hpbc] at hbc
      have hac : strLe a.path c.path = true := strLe_trans a.path b.path c.path hab hbc
      by_cases hpac : a.path = c.path
      · exfalso
        refine hpab (strLe_antisymm a.path b.path hab ?_)
        rw [hpac]
        exact hbc
      · rw [if_neg hpac]
        exact hac

theorem moduleRel_antisymm (vle : String → String → Bool)
    (hvanti : ∀ a b, vle a b = true → vle b a = true → a = b)
    (a b : Version) (hab : moduleRel vle a b) (hba : moduleRel vle b a) : a = b := by
  unfold moduleRel moduleLeB at hab hba
  by_cases hp : a.path = b.path
  · rw [if_pos hp] at hab
    rw [if_pos hp.symm] at hba
    exact version_ext a b hp (hvanti a.version b.version hab hba)
  · rw [if_neg hp] at hab
    rw [if_neg fun hx => hp hx.symm] at hba
    exact absurd (strLe_antisymm a.path b.path hab hba) hp

/-- C5 (confirmed): WriteGoSum serializes canonically and deterministically
and touches the file system as specified.  Under the contract of the
external version ordering `vle` (total, transitive, antisymmetric): the
serialized buffer is invariant under reordering of the map entries (so it
is a function of the map alone, independent of Go's randomized map
iteration); the emitted (key, hash) pairs are sorted by module ordering
with ascending hashes inside each key and are exactly one pair per stored
hash; the buffer is the concatenation of one "path version hash\n" line
per pair; the lockfile is written exactly when the buffer differs from the
current on-disk bytes; and the remembered go.modverify file is removed
exactly when one was noted at load time. -/
theorem writeGoSum_canonical (vle : String → String → Bool)
    (hvtot : ∀ a b, vle a b = true ∨ vle b a = true)
    (hvtrans : ∀ a b c, vle a b = true → vle b c = true → vle a c = true)
    (hvanti : ∀ a b, vle a b = true → vle b a = true → a = b)
    (st : GoSumState) (cur : Option (List Char)) (m2 : List (Version × List String))
    (hperm : st.m.Perm m2) (hnodup : (st.m.map Prod.fst).Nodup)
    (hen : st.enabled = true) :
    writeGoSumBuf vle st.m = writeGoSumBuf vle m2
    ∧ List.Sorted (emitRel vle) (emittedPairs vle st.m)
    ∧ (emittedPairs vle st.m).Perm (st.m.flatMap fun e => e.2.map fun h => (e.1, h))
    ∧ writeGoSumBuf vle st.m = (emittedPairs vle st.m).flatMap (fun kh => goSumLine kh.1 kh.2)
    ∧ (GoSumEv.wroteSum (writeGoSumBuf vle st.m) ∈ WriteGoSum vle st cur ↔
        cur.getD [] ≠ writeGoSumBuf vle st.m)
    ∧ ((∃ p, GoSumEv.removedModverify p ∈ WriteGoSum vle st cur) ↔ st.modverify ≠ "") := by
  haveI hTot : IsTotal Version (moduleRel vle) := ⟨moduleRel_total vle hvtot⟩
  haveI hTrans : IsTrans Version (moduleRel vle) := ⟨moduleRel_trans vle hvtrans⟩
  haveI hAnti : IsAntisymm Version (moduleRel vle) := ⟨moduleRel_antisymm vle hvanti⟩
  have hkeysperm : (sortModsGo vle (st.m.map Prod.fst)).Perm (st.m.map Prod.fst) :=
    List.perm_insertionSort _ _
  have hnodup2 : (sortModsGo vle (st.m.map Prod.fst)).Nodup := hkeysperm.symm.nodup hnodup
  have hsortedkeys : List.Sorted (moduleRel vle) (sortModsGo vle (st.m.map Prod.fst)) :=
    List.sorted_insertionSort (moduleRel vle) _
  refine ⟨?_, ?_, ?_, rfl, ?_, ?_⟩
  · -- determinism under permutation of the entries
    have hkeq : sortModsGo vle (st.m.map Prod.fst) = sortModsGo vle (m2.map Prod.fst) := by
      refine List.eq_of_perm_of_sorted ?_ hsortedkeys
        (List.sorted_insertionSort (moduleRel vle) _)
      exact (hkeysperm.trans (hperm.map Prod.fst)).trans
        (List.perm_insertionSort (moduleRel vle) _).symm
    have hfun : (fun k => (sortStringsGo (sumLookup st.m k)).map fun h => (k, h)) =
        (fun k => (sortStringsGo (sumLookup m2 k)).map fun h => (k, h)) := by
      funext k
      rw [sumLookup_perm hperm hnodup k]
    unfold writeGoSumBuf emittedPairs
    rw [hkeq, hfun]
  · -- canonical emission order
    unfold emittedPairs List.Sorted
    rw [List.flatMap_def, List.pairwise_flatten]
    constructor
    · intro g hg
      rcases List.mem_map.mp hg with ⟨k, hk, hgk⟩
      rw [← hgk]
      rw [List.pairwise_map]
      have hs : List.Sorted strRel (sortStringsGo (sumLookup st.m k)) :=
        List.sorted_insertionSort strRel _
      refine List.Pairwise.imp ?_ hs
      intro h1 h2 hrel
      refine ⟨?_, fun _ => hrel⟩
      rcases moduleRel_total vle hvtot k k with hx | hx <;> exact hx
    · rw [List.pairwise_map]
      have hcomb := List.Pairwise.and hsortedkeys hnodup2
      refine List.Pairwise.imp ?_ hcomb
      intro k1 k2 hk12
      intro x hx y hy
      rcases List.mem_map.mp hx with ⟨h1, hh1, hx1⟩
      rcases List.mem_map.mp hy with ⟨h2, hh2, hy2⟩
      rw [← hx1, ← hy2]
      exact ⟨hk12.1, fun hx2 => absurd hx2 hk12.2⟩
  · -- exactly one pair per stored hash
    unfold emittedPairs
    refine ((List.Perm.flatMap_right _ hkeysperm).trans ?_)
    rw [List.flatMap_map]
    refine flatMap_perm_congr _ _ st.m ?_
    intro e he
    rw [sumLookup_self st.m e hnodup he]
    exact (List.perm_insertionSort strRel e.2).map fun h => (e.1, h)
  · -- lockfile written exactly when the bytes differ
    unfold WriteGoSum
    rw [if_neg (by rw [hen]; simp)]
    by_cases hdiff : cur.getD [] ≠ writeGoSumBuf vle st.m
    · rw [if_pos hdiff]
      simp [hdiff]
    · rw [if_neg hdiff]
      simp only [List.nil_append]
      constructor
      · intro hmem
        by_cases hmv : st.modverify ≠ ""
        · rw [if_pos hmv] at hmem
          simp at hmem
        · rw [if_neg hmv] at hmem
          cases hmem
      · intro hx; exact absurd hx hdiff
  · -- go.modverify removed exactly when noted
    unfold WriteGoSum
    rw [if_neg (by rw [hen]; simp)]
    by_cases hmv : st.modverify ≠ ""
    · rw [if_pos hmv]
      constructor
      · intro _; exact hmv
      · intro _
        exact ⟨st.modverify, List.mem_append.mpr (Or.inr (List.mem_cons.mpr (Or.inl rfl)))⟩
    · rw [if_neg hmv]
      simp only [List.append_nil]
      constructor
      · rintro ⟨p, hp⟩
        by_cases hdiff : cur.getD [] ≠ writeGoSumBuf vle st.m
        · rw [if_pos hdiff] at hp
          simp at hp
        · rw [if_neg hdiff] at hp
          cases hp
      · intro hx; exact absurd hx hmv

/-- C5 witness: the canonicalization theorem applied to a concrete
two-entry store with the byte-lexicographic version ordering. -/
theorem writeGoSum_canonical_witness :
    ((GoSumState.mk [(Version.mk "m.io/b" "v2.0.0", ["h1:C", "h1:B"]),
        (Version.mk "m.io/a" "v1.0.0", ["h1:A"])] true "x.modverify").m.map
          Prod.fst).Nodup ∧
    (GoSumEv.wroteSum (writeGoSumBuf strLe
        (GoSumState.mk [(Version.mk "m.io/b" "v2.0.0", ["h1:C", "h1:B"]),
          (Version.mk "m.io/a" "v1.0.0", ["h1:A"])] true "x.modverify").m) ∈
      WriteGoSum strLe
        (GoSumState.mk [(Version.mk "m.io/b" "v2.0.0", ["h1:C", "h1:B"]),
          (Version.mk "m.io/a" "v1.0.0", ["h1:A"])] true "x.modverify") none ↔
      (none : Option (List Char)).getD [] ≠ writeGoSumBuf strLe
        (GoSumState.mk [(Version.mk "m.io/b" "v2.0.0", ["h1:C", "h1:B"]),
          (Version.mk "m.io/a" "v1.0.0", ["h1:A"])] true "x.modverify").m) :=
  ⟨by decide,
    (writeGoSum_canonical strLe strLe_total strLe_trans strLe_antisymm
      (GoSumState.mk [(Version.mk "m.io/b" "v2.0.0", ["h1:C", "h1:B"]),
        (Version.mk "m.io/a" "v1.0.0", ["h1:A"])] true "x.modverify") none
      [(Version.mk "m.io/b" "v2.0.0", ["h1:C", "h1:B"]),
        (Version.mk "m.io/a" "v1.0.0", ["h1:A"])]
      (List.Perm.refl _) (by decide) rfl).2.2.2.2.1⟩

/-! ## Disk cache layer (cache.go): readDiskCache, readDiskStat,
readDiskStatByHash, readDiskGoMod -/

/-- RevInfo, modelled from the spec (its declaration, in repo.go, is not
among the given sources): canonical Version, commit Name, Short form,
commit Time. -/
structure RevInfo where
  version : String
  name : String
  short : String
  time : Nat
deriving DecidableEq, Repr

/-- External pure predicates, out of scope per the spec ("semantic version
parsing and pseudo-version recognition (pure predicates)" are external
collaborators): `semver.IsValid`, `IsPseudoVersion`, `codehost.AllHex`. -/
structure Preds where
  semverIsValid : String → Bool
  isPseudoVersion : String → Bool
  allHex : String → Bool

/-- Abstract file system: the configured SrcMod root, file contents by
path, directory listings by path (`none` models a failing `os.Open` or
`Readdirnames`), and injected write outcomes (`some e` makes a write to
that file fail with error `e`). -/
structure FS where
  srcMod : String
  files : String → Option (List Char)
  dirs : String → Option (List String)
  writeErr : String → Option String

/-- The `ROOT/cache/download/<path>/@v` directory (filepath.Join modelled
as "/"-joining). -/
def atVDir (fs : FS) (path : String) : String :=
  fs.srcMod ++ "/cache/download/" ++ path ++ "/@v"

/-- The `ROOT/cache/download/<path>/@v/<rev>.<suffix>` cache file name. -/
def cacheFile (fs : FS) (path rev sfx : String) : String :=
  atVDir fs path ++ "/" ++ rev ++ "." ++ sfx

/-- Result of `readDiskCache`: the cache file name, the content on a hit
(`none` models err = errNotCached), and whether the disk was touched. -/
structure RDCRes where
  file : String
  data : Option (List Char)
  touched : Bool
deriving Repr

/-- Model of `readDiskCache(path, rev, suffix)` from cache.go: requires a
valid semantic version and a set SrcMod, else NotCached with an empty file
name and no disk access; otherwise reads the cache file, returning its
name also on a read failure. -/
def readDiskCache (pr : Preds) (fs : FS) (path rev sfx : String) : RDCRes :=
  if pr.semverIsValid rev = false ∨ fs.srcMod = "" then ⟨"", none, false⟩
  else
    match fs.files (cacheFile fs path rev sfx) with
    | none => ⟨cacheFile fs path rev sfx, none, true⟩
    | some d => ⟨cacheFile fs path rev sfx, some d, true⟩

/-- The scan in `readDiskStatByHash` (cache.go): the first directory entry
that ends with `-<rev12>.info` and whose stem is a recognized
pseudo-version. -/
def findPseudoStem (pr : Preds) (sfx : String) : List String → Option String
  | [] => none
  | name :: rest =>
    if strHasSfx name sfx && pr.isPseudoVersion (strTrimSfx name ".info") then
      some (strTrimSfx name ".info")
    else findPseudoStem pr sfx rest

/-- Model of `readDiskStat(path, rev)` from cache.go, fuelled to make the
mutual recursion with `readDiskStatByHash` structural (the fallback body
is inlined; under the external contract that pseudo-versions are never
all-hex the fuel is never exhausted at the depth used below).  Reads the
`.info` cache file; a JSON decode failure (`jdec`) is demoted to
NotCached; on a read miss, falls back to the by-hash alias scan: if rev is
all-hex and at least 12 characters, truncate to 12, list the `@v`
directory and recurse into the first matching cached pseudo-version. -/
def readDiskStatF (pr : Preds) (fs : FS) (jdec : List Char → Option RevInfo) :
    Nat → String → String → String × Option RevInfo
  | 0, _, _ => ("", none)
  | fuel + 1, path, rev =>
    let r := readDiskCache pr fs path rev "info"
    match r.data with
    | some d =>
      match jdec d with
      | some info => (r.file, some info)
      | none => (r.file, none)
    | none =>
      if pr.allHex rev = false ∨ rev.data.length < 12 then (r.file, none)
      else
        match fs.dirs (atVDir fs path) with
        | none => (r.file, none)
        | some names =>
          match findPseudoStem pr ("-" ++ strTakeN rev 12 ++ ".info") names with
          | some stem =>
            match readDiskStatF pr fs jdec fuel path stem with
            | (f2, some info) => (f2, some info)
            | (_, none) => (r.file, none)
          | none => (r.file, none)

/-- `readDiskStat` at the recursion depth of the source (one by-hash
fallback, whose recursive call performs no further fallback on
pseudo-version stems). -/
def readDiskStat (pr : Preds) (fs : FS) (jdec : List Char → Option RevInfo)
    (path rev : String) : String × Option RevInfo :=
  readDiskStatF pr fs jdec 2 path rev

/-- Model of `readDiskStatByHash(path, rev)` from cache.go, standalone:
NotCached unless rev is entirely hexadecimal with at least 12 characters;
otherwise truncate to 12, enumerate the `@v` directory (a failing open or
read yields NotCached) and recurse into `readDiskStat` on the first
matching pseudo-version stem. -/
def readDiskStatByHash (pr : Preds) (fs : FS) (jdec : List Char → Option RevInfo)
    (path rev : String) : String × Option RevInfo :=
  if pr.allHex rev = false ∨ rev.data.length < 12 then ("", none)
  else
    match fs.dirs (atVDir fs path) with
    | none => ("", none)
    | some names =>
      match findPseudoStem pr ("-" ++ strTakeN rev 12 ++ ".info") names with
      | some stem => readDiskStatF pr fs jdec 1 path stem
      | none => ("", none)

/-- The legacy auto-generated manifest marker `//vgo 0.0.` (the
`oldVgoPrefix` byte string of cache.go). -/
def oldVgoMarker : List Char := ("//vgo 0.0.").data

/-- Model of `checkGoMod(path, version, data)` from fetch.go: hash the
manifest bytes with the external algorithm-1 primitive `hash1`
(`dirhash.Hash1` over the singleton virtual file "go.mod") and check the
result under key `(path, version + "/go.mod")`. -/
def checkGoMod (hash1 : List Char → String) (st : GoSumState)
    (path version : String) (data : List Char) : SumCheck × GoSumState :=
  checkOneSum st (Version.mk path (version ++ "/go.mod")) (hash1 data)

/-- Result of `readDiskGoMod`: file name, returned bytes (`none` models
err = errNotCached), the outcome of the `checkGoMod` verification when one
was performed, and the resulting SumDB store. -/
structure GoModRead where
  file : String
  data : Option (List Char)
  check : Option SumCheck
  st : GoSumState
deriving Repr

/-- Model of `readDiskGoMod(path, rev)` from cache.go: read the `mod`
cache file; content starting with the legacy `//vgo 0.0.` marker is
demoted to NotCached with nil bytes; on a hit the bytes are immediately
verified with `checkGoMod` (the `.mismatch` outcome is the fatal abort). -/
def readDiskGoMod (pr : Preds) (fs : FS) (hash1 : List Char → String)
    (st : GoSumState) (path rev : String) : GoModRead :=
  let r := readDiskCache pr fs path rev "mod"
  match r.data with
  | none => ⟨r.file, none, none, st⟩
  | some d =>
    if d.take oldVgoMarker.length = oldVgoMarker then ⟨r.file, none, none, st⟩
    else
      let c := checkGoMod hash1 st path rev d
      ⟨r.file, some d, some c.1, c.2⟩

/-- C8 (corrected): readDiskCache with an invalid semantic version or an
unset SrcMod returns NotCached without touching the disk and with an empty
file name (which the corresponding write treats as a no-op); on a read
miss with a valid version and SrcMod set, the target cache file name is
returned. -/
theorem readDiskCache_characterization (pr : Preds) (fs : FS) (path rev sfx : String) :
    ((pr.semverIsValid rev = false ∨ fs.srcMod = "") →
      readDiskCache pr fs path rev sfx = ⟨"", none, false⟩)
    ∧ (pr.semverIsValid rev = true → fs.srcMod ≠ "" →
        fs.files (cacheFile fs path rev sfx) = none →
      readDiskCache pr fs path rev sfx = ⟨cacheFile fs path rev sfx, none, true⟩) := by
  constructor
  · intro h
    unfold readDiskCache
    rw [if_pos h]
  · intro h1 h2 h3
    unfold readDiskCache
    rw [if_neg (by rw [h1]; simp [h2]), h3]

/-- External predicates instantiated for concrete evaluation: a version is
valid when it starts with "v", a pseudo-version when it starts with
"v0.0.0-", and hex recognition accepts lowercase hex digits. -/
def predsWit : Preds :=
  ⟨fun s => strHasPre s "v", fun s => strHasPre s "v0.0.0-",
    fun s => s.data.all fun c => c.isDigit || (('a' ≤ c) && (c ≤ 'f'))⟩

/-- C8 witness: the characterization applied to an empty file system. -/
theorem readDiskCache_characterization_witness :
    (predsWit.semverIsValid "v1.0.0" = true ∧ ("/m" : String) ≠ "" ∧
      (FS.mk "/m" (fun _ => none) (fun _ => none) fun _ => none).files
        (cacheFile (FS.mk "/m" (fun _ => none) (fun _ => none) fun _ => none) "p" "v1.0.0" "info") = none) ∧
    readDiskCache predsWit (FS.mk "/m" (fun _ => none) (fun _ => none) fun _ => none)
        "p" "v1.0.0" "info" =
      ⟨cacheFile (FS.mk "/m" (fun _ => none) (fun _ => none) fun _ => none) "p" "v1.0.0" "info",
        none, true⟩ :=
  ⟨⟨by decide, by decide, rfl⟩,
    (readDiskCache_characterization predsWit
      (FS.mk "/m" (fun _ => none) (fun _ => none) fun _ => none) "p" "v1.0.0" "info").2
      (by decide) (by decide) rfl⟩

/-- C8 counterexample: on the invalid-revision miss the returned file name
is empty, not the target cache file name, so "on every cache miss the
target filename is still returned" fails as stated. -/
theorem readDiskCache_claim_counterexample :
    (readDiskCache predsWit (FS.mk "/m" (fun _ => none) (fun _ => none) fun _ => none)
        "p" "x" "info").data = none ∧
    (readDiskCache predsWit (FS.mk "/m" (fun _ => none) (fun _ => none) fun _ => none)
        "p" "x" "info").file ≠
      cacheFile (FS.mk "/m" (fun _ => none) (fun _ => none) fun _ => none) "p" "x" "info" := by
  exact ⟨rfl, by decide⟩

/-- C6 (confirmed): alias shortcut correctness of the cached pseudo-version
lookup.  If the `@v` listing's first matching `-<T>.info` entry is the
pseudo-version `v` whose info file decodes to `info`, then `readDiskStat`
on the 12-hex tail `T`, and on any longer all-hex revision whose first 12
characters are `T`, returns that cached RevInfo (the model contains no
backend: the result is computed from the disk alone); a revision that is
not entirely hexadecimal, or shorter than 12 characters, or a missing
cache directory, yields NotCached. -/
theorem readDiskStat_alias (pr : Preds) (fs : FS) (jdec : List Char → Option RevInfo)
    (path T v : String) (content : List Char) (info : RevInfo) (names : List String)
    (hsrc : fs.srcMod ≠ "")
    (hThex : pr.allHex T = true) (hTlen : T.data.length = 12)
    (hTnotsv : pr.semverIsValid T = false)
    (hvvalid : pr.semverIsValid v = true)
    (hdirs : fs.dirs (atVDir fs path) = some names)
    (hfind : findPseudoStem pr ("-" ++ T ++ ".info") names = some v)
    (hfile : fs.files (cacheFile fs path v "info") = some content)
    (hdec : jdec content = some info) :
    readDiskStat pr fs jdec path T = (cacheFile fs path v "info", some info)
    ∧ (∀ T2, pr.allHex T2 = true → 12 ≤ T2.data.length → strTakeN T2 12 = T →
        pr.semverIsValid T2 = false →
        readDiskStat pr fs jdec path T2 = (cacheFile fs path v "info", some info))
    ∧ (∀ rev, pr.allHex rev = false → readDiskStatByHash pr fs jdec path rev = ("", none))
    ∧ (∀ rev, rev.data.length < 12 → readDiskStatByHash pr fs jdec path rev = ("", none))
    ∧ (∀ (fs2 : FS) rev, pr.allHex rev = true → 12 ≤ rev.data.length →
        fs2.dirs (atVDir fs2 path) = none →
        readDiskStatByHash pr fs2 jdec path rev = ("", none)) := by
  have hgen : ∀ T2, pr.allHex T2 = true → 12 ≤ T2.data.length → strTakeN T2 12 = T →
      pr.semverIsValid T2 = false →
      readDiskStat pr fs jdec path T2 = (cacheFile fs path v "info", some info) := by
    intro T2 h1 h2 h3 h4
    have h2c : 12 ≤ T2.length := h2
    unfold readDiskStat
    simp [readDiskStatF, readDiskCache, h4, h1, h3, hdirs, hfind, hvvalid, hsrc,
      hfile, hdec, h2c]
  refine ⟨?_, hgen, ?_, ?_, ?_⟩
  · refine hgen T hThex (by rw [hTlen]) ?_ hTnotsv
    unfold strTakeN
    rw [← hTlen, List.take_length]
  · intro rev h
    unfold readDiskStatByHash
    rw [if_pos (Or.inl h)]
  · intro rev h
    unfold readDiskStatByHash
    rw [if_pos (Or.inr h)]
  · intro fs2 rev h1 h2 hd
    unfold readDiskStatByHash
    rw [if_neg ?hc, hd]
    case hc =>
      rw [h1]
      intro hor
      rcases hor with hx | hx
      · cases hx
      · exact Nat.not_lt.mpr h2 hx

/-- Concrete file system with one cached pseudo-version info file. -/
def fsWit : FS :=
  ⟨"/m",
    fun f => if f = "/m/cache/download/p/@v/v0.0.0-20180604122334-abcdef012345.info"
      then some ("j".data) else none,
    fun d => if d = "/m/cache/download/p/@v"
      then some ["v0.0.0-20180604122334-abcdef012345.info"] else none,
    fun _ => none⟩

/-- Concrete RevInfo stored in `fsWit`. -/
def infoWit : RevInfo := ⟨"v0.0.0-20180604122334-abcdef012345", "n", "s", 0⟩

/-- Concrete JSON decoder matching `fsWit`'s content. -/
def jdecWit : List Char → Option RevInfo :=
  fun d => if d = "j".data then some infoWit else none

/-- C6 witness: the alias lookup evaluated on the concrete file system. -/
theorem readDiskStat_alias_witness :
    (predsWit.allHex "abcdef012345" = true ∧
      fsWit.dirs (atVDir fsWit "p") = some ["v0.0.0-20180604122334-abcdef012345.info"] ∧
      findPseudoStem predsWit ("-" ++ "abcdef012345" ++ ".info")
          ["v0.0.0-20180604122334-abcdef012345.info"] =
        some "v0.0.0-20180604122334-abcdef012345") ∧
    readDiskStat predsWit fsWit jdecWit "p" "abcdef012345" =
      (cacheFile fsWit "p" "v0.0.0-20180604122334-abcdef012345" "info", some infoWit) :=
  ⟨⟨by decide, by decide, by decide⟩,
    (readDiskStat_alias predsWit fsWit jdecWit "p" "abcdef012345"
      "v0.0.0-20180604122334-abcdef012345" ("j".data) infoWit
      ["v0.0.0-20180604122334-abcdef012345.info"]
      (by decide) (by decide) (by decide) (by decide) (by decide)
      (by decide) (by decide) (by decide) (by decide)).1⟩

/-- C7 (confirmed): readDiskGoMod ignores legacy manifests and verifies
hits.  On a cache hit whose content begins with the fixed marker
`//vgo 0.0.`, it returns NotCached with nil bytes, performs no
verification and leaves the SumDB store untouched; on any other hit it
returns the bytes and immediately hands them to checkGoMod, i.e. the
checkOneSum verification under key (path, rev + "/go.mod") of the
algorithm-1 hash of the bytes, whose mismatch outcome is the fatal abort. -/
theorem readDiskGoMod_characterization (pr : Preds) (fs : FS)
    (hash1 : List Char → String) (st : GoSumState) (path rev : String) (d : List Char)
    (hfile : (readDiskCache pr fs path rev "mod").data = some d) :
    (d.take oldVgoMarker.length = oldVgoMarker →
      readDiskGoMod pr fs hash1 st path rev =
        ⟨(readDiskCache pr fs path rev "mod").file, none, none, st⟩)
    ∧ (d.take oldVgoMarker.length ≠ oldVgoMarker →
      readDiskGoMod pr fs hash1 st path rev =
        ⟨(readDiskCache pr fs path rev "mod").file, some d,
          some (checkOneSum st (Version.mk path (rev ++ "/go.mod")) (hash1 d)).1,
          (checkOneSum st (Version.mk path (rev ++ "/go.mod")) (hash1 d)).2⟩)
    ∧ (∀ vh, d.take oldVgoMarker.length ≠ oldVgoMarker →
        (checkOneSum st (Version.mk path (rev ++ "/go.mod")) (hash1 d)).1 = .mismatch vh →
        (readDiskGoMod pr fs hash1 st path rev).check = some (.mismatch vh)) := by
  have hunf : readDiskGoMod pr fs hash1 st path rev =
      if d.take oldVgoMarker.length = oldVgoMarker then
        ⟨(readDiskCache pr fs path rev "mod").file, none, none, st⟩
      else
        ⟨(readDiskCache pr fs path rev "mod").file, some d,
          some (checkGoMod hash1 st path rev d).1, (checkGoMod hash1 st path rev d).2⟩ := by
    simp only [readDiskGoMod, hfile]
  refine ⟨?_, ?_, ?_⟩
  · intro hm
    rw [hunf, if_pos hm]
  · intro hm
    rw [hunf, if_neg hm]
    rfl
  · intro vh hm hc
    rw [hunf, if_neg hm]
    simp only [checkGoMod] at hc ⊢
    rw [hc]

/-- C7 witness: a hit without the legacy marker on an enabled empty store;
the manifest hash is appended as the first observation. -/
theorem readDiskGoMod_characterization_witness :
    ((readDiskCache predsWit
        (FS.mk "/m" (fun f => if f = cacheFile
            (FS.mk "/m" (fun _ => none) (fun _ => none) fun _ => none) "p" "v1.0.0" "mod"
          then some ("module m".data) else none) (fun _ => none) fun _ => none)
        "p" "v1.0.0" "mod").data = some ("module m".data)) ∧
    (("module m".data.take oldVgoMarker.length ≠ oldVgoMarker) ∧
      readDiskGoMod predsWit
        (FS.mk "/m" (fun f => if f = cacheFile
            (FS.mk "/m" (fun _ => none) (fun _ => none) fun _ => none) "p" "v1.0.0" "mod"
          then some ("module m".data) else none) (fun _ => none) fun _ => none)
        (fun _ => "h1:X") (GoSumState.mk [] true "") "p" "v1.0.0" =
      ⟨(readDiskCache predsWit
          (FS.mk "/m" (fun f => if f = cacheFile
              (FS.mk "/m" (fun _ => none) (fun _ => none) fun _ => none) "p" "v1.0.0" "mod"
            then some ("module m".data) else none) (fun _ => none) fun _ => none)
          "p" "v1.0.0" "mod").file, some ("module m".data),
        some (checkOneSum (GoSumState.mk [] true "")
          (Version.mk "p" ("v1.0.0" ++ "/go.mod")) ((fun _ => "h1:X") "module m".data)).1,
        (checkOneSum (GoSumState.mk [] true "")
          (Version.mk "p" ("v1.0.0" ++ "/go.mod")) ((fun _ => "h1:X") "module m".data)).2⟩) :=
  ⟨by decide,
    ⟨by decide,
      (readDiskGoMod_characterization predsWit
        (FS.mk "/m" (fun f => if f = cacheFile
            (FS.mk "/m" (fun _ => none) (fun _ => none) fun _ => none) "p" "v1.0.0" "mod"
          then some ("module m".data) else none) (fun _ => none) fun _ => none)
        (fun _ => "h1:X") (GoSumState.mk [] true "") "p" "v1.0.0" ("module m".data)
        (by decide)).2.1 (by decide)⟩⟩

/-! ## The cachingRepo facade (cache.go): Stat, Latest, GoMod -/

/-- Value stored in the par.Cache (a Go interface value): Stat/Latest
store a cachedInfo (RevInfo or error), GoMod a cached byte text or
error. -/
instance {α β : Type} [DecidableEq α] [DecidableEq β] : DecidableEq (Except α β) :=
  fun a b =>
    match a, b with
    | .ok x, .ok y =>
      match decEq x y with
      | isTrue h => isTrue (by rw [h])
      | isFalse h => isFalse fun hx => h (Except.ok.inj hx)
    | .error x, .error y =>
      match decEq x y with
      | isTrue h => isTrue (by rw [h])
      | isFalse h => isFalse fun hx => h (Except.error.inj hx)
    | .ok _, .error _ => isFalse fun hx => Except.noConfusion hx
    | .error _, .ok _ => isFalse fun hx => Except.noConfusion hx

inductive CVal where
  | info (c : Except String RevInfo)
  | text (c : Except String (List Char))
deriving DecidableEq, Repr

/-- Observable events of facade operations, in order of occurrence:
stderr notices, backend invocations, stderr reports of failed disk-cache
writes, and the checkOneSum unknown-hash warning. -/
inductive REv where
  | finding (path rev : String)
  | findingLatest (path : String)
  | backendStat (rev : String)
  | backendLatest
  | backendGoMod (rev : String)
  | writeStatErr (e : String)
  | writeGoModErr (e : String)
  | sumWarn
deriving DecidableEq, Repr

/-- Process state threaded through facade operations: the par.Cache
content, the file system, the SumDB store, and the event log. -/
structure CRWorld where
  cache : List (String × CVal)
  fs : FS
  gosum : GoSumState
  log : List REv

/-- Lookup in the par.Cache. -/
def cacheLookup : List (String × CVal) → String → Option CVal
  | [], _ => none
  | (k2, v) :: rest, k => if k2 = k then some v else cacheLookup rest k

/-- `Cache.Do` used purely to seed a key (cache.go lines 86 and 110): the
value is stored only when the key is not yet present. -/
def cacheSeed (c : List (String × CVal)) (k : String) (v : CVal) : List (String × CVal) :=
  match cacheLookup c k with
  | some _ => c
  | none => c ++ [(k, v)]

/-- Model of `writeDiskCache(file, data)`: a no-op on an empty file name
(cache.go's early return); otherwise the write outcome is injected
through `fs.writeErr` (mkdir/temp/rename failures); on success the file
content is replaced. -/
def writeDiskCacheM (fs : FS) (file : String) (data : List Char) : FS × Option String :=
  if file = "" then (fs, none)
  else
    match fs.writeErr file with
    | some e => (fs, some e)
    | none =>
      ({ fs with files := fun f => if f = file then some data else fs.files f }, none)

/-- Model of `writeDiskStat(file, info)`: no-op on an empty file name,
otherwise marshal (`enc`) and write. -/
def writeDiskStatM (enc : RevInfo → List Char) (fs : FS) (file : String)
    (info : RevInfo) : FS × Option String :=
  if file = "" then (fs, none)
  else writeDiskCacheM fs file (enc info)

/-- Model of `cachingRepo.Stat(rev)` from cache.go: single-flight on key
"stat:"+rev; on a miss try the disk, else announce and call the backend;
on backend success write the disk cache (reporting a write error to
stderr without propagating it) and, when the canonical version differs
from rev, seed the cache under "stat:"+info.Version; the produced value
(result or error) is memoized. -/
def statOp (pr : Preds) (jdec : List Char → Option RevInfo) (enc : RevInfo → List Char)
    (bstat : String → Except String RevInfo) (quiet : Bool) (path rev : String)
    (w : CRWorld) : Except String RevInfo × CRWorld :=
  match cacheLookup w.cache ("stat:" ++ rev) with
  | some (.info c) => (c, w)
  | some (.text _) => (.error "panic: unexpected cache entry type", w)
  | none =>
    match readDiskStat pr w.fs jdec path rev with
    | (_, some info) =>
      (.ok info, { w with cache := w.cache ++ [("stat:" ++ rev, .info (.ok info))] })
    | (file, none) =>
      let log2 := w.log ++ (if quiet then [] else [REv.finding path rev]) ++
        [REv.backendStat rev]
      match bstat rev with
      | .ok info =>
        let wr := writeDiskStatM enc w.fs file info
        let log3 := log2 ++ (match wr.2 with
          | some e => [REv.writeStatErr e]
          | none => [])
        let cache2 := if info.version ≠ rev then
            cacheSeed w.cache ("stat:" ++ info.version) (.info (.ok info))
          else w.cache
        (.ok info,
          { cache := cache2 ++ [("stat:" ++ rev, .info (.ok info))], fs := wr.1,
            gosum := w.gosum, log := log3 })
      | .error e =>
        (.error e,
          { w with
            cache := w.cache ++ [("stat:" ++ rev, .info (.error e))],
            log := log2 })

/-- Model of `cachingRepo.Latest()` from cache.go: single-flight on key
"latest:"; announce, call the backend; on success seed "stat:"+info.Version
and, when no disk entry exists for that canonical version, write one —
discarding any write error without reporting it; memoize the value. -/
def latestOp (pr : Preds) (jdec : List Char → Option RevInfo) (enc : RevInfo → List Char)
    (blatest : Except String RevInfo) (quiet : Bool) (path : String)
    (w : CRWorld) : Except String RevInfo × CRWorld :=
  match cacheLookup w.cache "latest:" with
  | some (.info c) => (c, w)
  | some (.text _) => (.error "panic: unexpected cache entry type", w)
  | none =>
    let log2 := w.log ++ (if quiet then [] else [REv.findingLatest path]) ++
      [REv.backendLatest]
    match blatest with
    | .ok info =>
      let cache2 := cacheSeed w.cache ("stat:" ++ info.version) (.info (.ok info))
      let fs2 :=
        match readDiskStat pr w.fs jdec path info.version with
        | (file, none) => (writeDiskStatM enc w.fs file info).1
        | (_, some _) => w.fs
      (.ok info,
        { cache := cache2 ++ [("latest:", .info (.ok info))], fs := fs2,
          gosum := w.gosum, log := log2 })
    | .error e =>
      (.error e,
        { w with
          cache := w.cache ++ [("latest:", .info (.error e))],
          log := log2 })

/-- Model of `cachingRepo.GoMod(rev)` from cache.go: single-flight on key
"gomod:"+rev; on a miss read the disk manifest (which itself verifies a
hit through checkGoMod — a mismatch is the fatal abort, modelled as the
`.error` of the outer Except); on a disk miss canonicalize rev through
Stat, call the backend, hand the bytes (nil backend bytes hash as empty
content) to checkGoMod unconditionally, and on backend success write the
disk cache, reporting a write failure to stderr without propagating it;
the produced value is memoized. -/
def goModOp (pr : Preds) (jdec : List Char → Option RevInfo) (enc : RevInfo → List Char)
    (hash1 : List Char → String) (bstat : String → Except String RevInfo)
    (bgomod : String → Except String (List Char)) (quiet : Bool) (path rev : String)
    (w : CRWorld) : Except String (Except String (List Char) × CRWorld) :=
  match cacheLookup w.cache ("gomod:" ++ rev) with
  | some (.text c) => .ok (c, w)
  | some (.info _) => .ok (.error "panic: unexpected cache entry type", w)
  | none =>
    let g := readDiskGoMod pr w.fs hash1 w.gosum path rev
    match g.data with
    | some text =>
      match g.check with
      | some (.mismatch vh) => .error ("checksum mismatch: " ++ vh)
      | _ =>
        .ok (.ok text,
          { cache := w.cache ++ [("gomod:" ++ rev, .text (.ok text))], fs := w.fs,
            gosum := g.st,
            log := w.log ++ (match g.check with
              | some .warned => [REv.sumWarn]
              | _ => []) })
    | none =>
      match statOp pr jdec enc bstat quiet path rev w with
      | (.error e, w2) =>
        .ok (.error e,
          { w2 with
            cache := w2.cache ++ [("gomod:" ++ rev, .text (.error e))] })
      | (.ok info, w2) =>
        let log2 := w2.log ++ [REv.backendGoMod info.version]
        let btext := bgomod info.version
        let dataArg := match btext with
          | .ok t => t
          | .error _ => []
        let c := checkGoMod hash1 w2.gosum path info.version dataArg
        match c.1 with
        | .mismatch vh => .error ("checksum mismatch: " ++ vh)
        | _ =>
          let log3 := log2 ++ (match c.1 with
            | .warned => [REv.sumWarn]
            | _ => [])
          match btext with
          | .ok t =>
            let wr := writeDiskCacheM w2.fs g.file t
            .ok (.ok t,
              { cache := w2.cache ++ [("gomod:" ++ rev, .text (.ok t))], fs := wr.1,
                gosum := c.2,
                log := log3 ++ (match wr.2 with
                  | some e => [REv.writeGoModErr e]
                  | none => []) })
          | .error e =>
            .ok (.error e,
              { cache := w2.cache ++ [("gomod:" ++ rev, .text (.error e))],
                fs := w2.fs, gosum := c.2, log := log3 })

/-- Count of backend Stat invocations recorded in a log. -/
def countBackendStat (log : List REv) : Nat :=
  (log.filter fun e =>
    match e with
    | .backendStat _ => true
    | _ => false).length

theorem strAppend_left_cancel (p a b : String) (h : p ++ a = p ++ b) : a = b := by
  have hd := congrArg String.data h
  rw [String.data_append, String.data_append] at hd
  exact congrArg String.mk (List.append_cancel_left hd)

theorem cacheLookup_append (c1 : List (String × CVal)) (k : String) (v : CVal)
    (q : String) :
    cacheLookup (c1 ++ [(k, v)]) q =
      match cacheLookup c1 q with
      | some x => some x
      | none => if k = q then some v else none := by
  induction c1 with
  | nil => rfl
  | cons e rest ih =>
    rcases e with ⟨k2, v2⟩
    simp only [List.cons_append, cacheLookup, List.append_eq]
    by_cases h2 : k2 = q
    · rw [if_pos h2, if_pos h2]
    · rw [if_neg h2, if_neg h2, ih]

theorem cacheSeed_lookup_self (c : List (String × CVal)) (k : String) (v : CVal)
    (h : cacheLookup c k = none) : cacheLookup (cacheSeed c k v) k = some v := by
  unfold cacheSeed
  rw [h, cacheLookup_append, h]
  simp

theorem cacheSeed_lookup_other (c : List (String × CVal)) (k : String) (v : CVal)
    (q : String) (h : k ≠ q) : cacheLookup (cacheSeed c k v) q = cacheLookup c q := by
  unfold cacheSeed
  rcases hk : cacheLookup c k with _ | x
  · rw [cacheLookup_append]
    rcases hq : cacheLookup c q with _ | y
    · simp [h]
    · rfl
  · rfl

theorem countBackendStat_append (a b : List REv) :
    countBackendStat (a ++ b) = countBackendStat a + countBackendStat b := by
  simp [countBackendStat, List.filter_append]

/-- C3 (corrected): memoization and canonical-key seeding of Stat.  When a
Stat miss resolves through the backend to a RevInfo whose canonical
Version differs from the requested rev (both keys initially absent), the
result is memoized under both "stat:"+rev and "stat:"+info.Version; the
backend is invoked exactly once; a subsequent Stat on the canonical
Version or on the same rev returns the equal RevInfo with no state change
and no further backend call; and in general any Stat whose key is already
cached returns the cached value unchanged.  (At most one backend call per
distinct requested rev — not across arbitrary distinct aliases; see the
counterexample.) -/
theorem stat_memoization (pr : Preds) (jdec : List Char → Option RevInfo)
    (enc : RevInfo → List Char) (bstat : String → Except String RevInfo)
    (quiet : Bool) (path rev f0 : String) (info : RevInfo) (w : CRWorld)
    (hmiss : cacheLookup w.cache ("stat:" ++ rev) = none)
    (hmiss2 : cacheLookup w.cache ("stat:" ++ info.version) = none)
    (hdisk : readDiskStat pr w.fs jdec path rev = (f0, none))
    (hb : bstat rev = .ok info)
    (hdiff : info.version ≠ rev) :
    (statOp pr jdec enc bstat quiet path rev w).1 = .ok info
    ∧ cacheLookup (statOp pr jdec enc bstat quiet path rev w).2.cache
        ("stat:" ++ info.version) = some (.info (.ok info))
    ∧ cacheLookup (statOp pr jdec enc bstat quiet path rev w).2.cache
        ("stat:" ++ rev) = some (.info (.ok info))
    ∧ countBackendStat (statOp pr jdec enc bstat quiet path rev w).2.log =
        countBackendStat w.log + 1
    ∧ statOp pr jdec enc bstat quiet path info.version
        (statOp pr jdec enc bstat quiet path rev w).2 =
      (.ok info, (statOp pr jdec enc bstat quiet path rev w).2)
    ∧ statOp pr jdec enc bstat quiet path rev
        (statOp pr jdec enc bstat quiet path rev w).2 =
      (.ok info, (statOp pr jdec enc bstat quiet path rev w).2)
    ∧ (∀ (w0 : CRWorld) (rev0 : String) (c : Except String RevInfo),
        cacheLookup w0.cache ("stat:" ++ rev0) = some (.info c) →
        statOp pr jdec enc bstat quiet path rev0 w0 = (c, w0)) := by
  have hkeyne : ("stat:" ++ info.version) ≠ ("stat:" ++ rev) := by
    intro hx
    exact hdiff (strAppend_left_cancel "stat:" info.version rev hx)
  have hhit : ∀ (w0 : CRWorld) (rev0 : String) (c : Except String RevInfo),
      cacheLookup w0.cache ("stat:" ++ rev0) = some (.info c) →
      statOp pr jdec enc bstat quiet path rev0 w0 = (c, w0) := by
    intro w0 rev0 c hx
    unfold statOp
    rw [hx]
  have h1 : (statOp pr jdec enc bstat quiet path rev w).1 = .ok info := by
    simp only [statOp, hmiss, hdisk, hb]
  have hcache : (statOp pr jdec enc bstat quiet path rev w).2.cache =
      cacheSeed w.cache ("stat:" ++ info.version) (.info (.ok info)) ++
        [("stat:" ++ rev, .info (.ok info))] := by
    simp only [statOp, hmiss, hdisk, hb, if_pos hdiff]
  have hlog : (statOp pr jdec enc bstat quiet path rev w).2.log =
      (w.log ++ (if quiet then [] else [REv.finding path rev]) ++
        [REv.backendStat rev]) ++
        (match (writeDiskStatM enc w.fs f0 info).2 with
          | some e => [REv.writeStatErr e]
          | none => []) := by
    simp only [statOp, hmiss, hdisk, hb]
  have h2 : cacheLookup (statOp pr jdec enc bstat quiet path rev w).2.cache
      ("stat:" ++ info.version) = some (.info (.ok info)) := by
    rw [hcache, cacheLookup_append,
      cacheSeed_lookup_self w.cache _ _ hmiss2]
  have h3 : cacheLookup (statOp pr jdec enc bstat quiet path rev w).2.cache
      ("stat:" ++ rev) = some (.info (.ok info)) := by
    rw [hcache, cacheLookup_append,
      cacheSeed_lookup_other w.cache _ _ _ hkeyne, hmiss]
    simp
  refine ⟨h1, h2, h3, ?_, hhit _ _ _ h2, hhit _ _ _ h3, hhit⟩
  rw [hlog, countBackendStat_append, countBackendStat_append, countBackendStat_append]
  have hq : countBackendStat (if quiet then [] else [REv.finding path rev]) = 0 := by
    by_cases hqq : quiet <;> simp [hqq, countBackendStat]
  have hw : countBackendStat (match (writeDiskStatM enc w.fs f0 info).2 with
      | some e => [REv.writeStatErr e]
      | none => []) = 0 := by
    rcases (writeDiskStatM enc w.fs f0 info).2 with _ | e <;> simp [countBackendStat]
  rw [hq, hw]
  simp [countBackendStat]

/-- C3 counterexample: "backend invoked at most once across rev aliases
resolving to the same canonical Version" fails.  Two distinct branch-name
aliases both resolving to v1.0.0, with an empty cache root, cause two
backend Stat calls. -/
theorem stat_memoization_claim_counterexample :
    (let bst : String → Except String RevInfo :=
      fun _ => .ok (RevInfo.mk "v1.0.0" "n" "s" 0)
    let w0 : CRWorld := CRWorld.mk []
      (FS.mk "" (fun _ => none) (fun _ => none) fun _ => none)
      (GoSumState.mk [] true "") []
    let r1 := statOp predsWit (fun _ => none) (fun _ => []) bst true "p" "br1" w0
    let r2 := statOp predsWit (fun _ => none) (fun _ => []) bst true "p" "br2" r1.2
    r1.1 = .ok (RevInfo.mk "v1.0.0" "n" "s" 0) ∧
    r2.1 = .ok (RevInfo.mk "v1.0.0" "n" "s" 0) ∧
    countBackendStat r2.2.log = 2) := by
  exact ⟨rfl, rfl, rfl⟩

/-- C3 witness: seeding and alias-to-canonical memoization on a concrete
world. -/
theorem stat_memoization_witness :
    (cacheLookup ([] : List (String × CVal)) ("stat:" ++ "br1") = none ∧
      readDiskStat predsWit (FS.mk "" (fun _ => none) (fun _ => none) fun _ => none)
        (fun _ => none) "p" "br1" = ("", none) ∧
      ("v1.0.0" : String) ≠ "br1") ∧
    ((statOp predsWit (fun _ => none) (fun _ => [])
        (fun r => if r = "br1" then .ok (RevInfo.mk "v1.0.0" "n" "s" 0) else .error "nf")
        true "p" "br1"
        (CRWorld.mk [] (FS.mk "" (fun _ => none) (fun _ => none) fun _ => none)
          (GoSumState.mk [] true "") [])).1 = .ok (RevInfo.mk "v1.0.0" "n" "s" 0)) :=
  ⟨⟨rfl, by decide, by decide⟩,
    (stat_memoization predsWit (fun _ => none) (fun _ => [])
      (fun r => if r = "br1" then .ok (RevInfo.mk "v1.0.0" "n" "s" 0) else .error "nf")
      true "p" "br1" "" (RevInfo.mk "v1.0.0" "n" "s" 0)
      (CRWorld.mk [] (FS.mk "" (fun _ => none) (fun _ => none) fun _ => none)
        (GoSumState.mk [] true "") [])
      rfl rfl (by decide) (by decide) (by decide)).1⟩

/-- Recognizer of stderr diagnostics reporting a failed disk-cache
write. -/
def isWriteErrEv : REv → Bool
  | .writeStatErr _ => true
  | .writeGoModErr _ => true
  | _ => false

/-- C9 (corrected): disk-cache write failures after a successful backend
call are never propagated and the operation succeeds with the in-memory
result; Stat and GoMod additionally report the failure on standard error,
but Latest discards the write error silently, emitting no diagnostic. -/
theorem facade_write_error_policy (pr : Preds) (jdec : List Char → Option RevInfo)
    (enc : RevInfo → List Char) (hash1 : List Char → String)
    (bstat : String → Except String RevInfo)
    (bgomod : String → Except String (List Char))
    (blatest : Except String RevInfo) (quiet : Bool) (path : String) (w : CRWorld) :
    (∀ rev f0 info e, cacheLookup w.cache ("stat:" ++ rev) = none →
      readDiskStat pr w.fs jdec path rev = (f0, none) →
      bstat rev = .ok info →
      (writeDiskStatM enc w.fs f0 info).2 = some e →
      (statOp pr jdec enc bstat quiet path rev w).1 = .ok info ∧
      REv.writeStatErr e ∈ (statOp pr jdec enc bstat quiet path rev w).2.log)
    ∧ (∀ rev f0 info t e w2, cacheLookup w.cache ("gomod:" ++ rev) = none →
      readDiskGoMod pr w.fs hash1 w.gosum path rev = ⟨f0, none, none, w.gosum⟩ →
      statOp pr jdec enc bstat quiet path rev w = (.ok info, w2) →
      bgomod info.version = .ok t →
      (∀ vh, (checkGoMod hash1 w2.gosum path info.version t).1 ≠ .mismatch vh) →
      (writeDiskCacheM w2.fs f0 t).2 = some e →
      ∃ w3, goModOp pr jdec enc hash1 bstat bgomod quiet path rev w = .ok (.ok t, w3) ∧
        REv.writeGoModErr e ∈ w3.log)
    ∧ (∀ info f0 e, cacheLookup w.cache "latest:" = none →
      blatest = .ok info →
      readDiskStat pr w.fs jdec path info.version = (f0, none) →
      (writeDiskStatM enc w.fs f0 info).2 = some e →
      (latestOp pr jdec enc blatest quiet path w).1 = .ok info ∧
      (latestOp pr jdec enc blatest quiet path w).2.log.filter isWriteErrEv =
        w.log.filter isWriteErrEv) := by
  refine ⟨?_, ?_, ?_⟩
  · intro rev f0 info e hmiss hdisk hb hwe
    constructor
    · simp only [statOp, hmiss, hdisk, hb]
    · simp only [statOp, hmiss, hdisk, hb, hwe]
      simp
  · intro rev f0 info t e w2 hgkey hgm hstat hbg hnm hwe
    rcases hc : (checkGoMod hash1 w2.gosum path info.version t).1 with _ | _ | vh | _ | _
    · simp only [goModOp, hgkey, hgm, hstat, hbg, hc, hwe]
      refine ⟨_, rfl, ?_⟩
      simp
    · simp only [goModOp, hgkey, hgm, hstat, hbg, hc, hwe]
      refine ⟨_, rfl, ?_⟩
      simp
    · exact absurd hc (hnm vh)
    · simp only [goModOp, hgkey, hgm, hstat, hbg, hc, hwe]
      refine ⟨_, rfl, ?_⟩
      simp
    · simp only [goModOp, hgkey, hgm, hstat, hbg, hc, hwe]
      refine ⟨_, rfl, ?_⟩
      simp
  · intro info f0 e hlmiss hbl hldisk hwe
    constructor
    · simp only [latestOp, hlmiss, hbl, hldisk]
    · simp only [latestOp, hlmiss, hbl, hldisk]
      rw [List.filter_append, List.filter_append]
      have h1 : List.filter isWriteErrEv (if quiet then [] else [REv.findingLatest path]) = [] := by
        by_cases hq : quiet <;> simp [hq, isWriteErrEv]
      rw [h1]
      simp [isWriteErrEv]

/-- C9 counterexample: the claim fails for Latest.  With every disk write
failing, Latest still succeeds, the write against the canonical version's
info file does fail, yet the event log carries no write-error diagnostic
at all. -/
theorem facade_write_error_claim_counterexample :
    (let fsAllFail : FS :=
      FS.mk "/m" (fun _ => none) (fun _ => none) fun _ => some "boom"
    let w0 : CRWorld := CRWorld.mk [] fsAllFail (GoSumState.mk [] true "") []
    let infoV : RevInfo := RevInfo.mk "v1.0.0" "n" "s" 0
    let r := latestOp predsWit (fun _ => none) (fun _ => ['j']) (.ok infoV) true "p" w0
    r.1 = .ok infoV ∧
    r.2.log.filter isWriteErrEv = [] ∧
    (writeDiskStatM (fun _ => ['j']) fsAllFail
      (readDiskStat predsWit fsAllFail (fun _ => none) "p" infoV.version).1 infoV).2 =
      some "boom") := by
  exact ⟨rfl, rfl, rfl⟩

/-- C9 witness: the Stat part applied to a concrete world with a failing
write: the operation succeeds and the failure is reported on stderr. -/
theorem facade_write_error_policy_witness :
    (let fsAllFail : FS :=
      FS.mk "/m" (fun _ => none) (fun _ => none) fun _ => some "boom"
    let w0 : CRWorld := CRWorld.mk [] fsAllFail (GoSumState.mk [] true "") []
    let infoV : RevInfo := RevInfo.mk "v1.0.0" "n" "s" 0
    (statOp predsWit (fun _ => none) (fun _ => ['j'])
        (fun _ => .ok infoV) true "p" "v1.0.0" w0).1 = .ok infoV ∧
    REv.writeStatErr "boom" ∈ (statOp predsWit (fun _ => none) (fun _ => ['j'])
        (fun _ => .ok infoV) true "p" "v1.0.0" w0).2.log) :=
  (facade_write_error_policy predsWit (fun _ => none) (fun _ => ['j'])
    (fun _ => "h1:X") (fun _ => .ok (RevInfo.mk "v1.0.0" "n" "s" 0))
    (fun _ => .error "unused") (.error "unused") true "p"
    (CRWorld.mk [] (FS.mk "/m" (fun _ => none) (fun _ => none) fun _ => some "boom")
      (GoSumState.mk [] true "") [])).1
    "v1.0.0" (cacheFile (FS.mk "/m" (fun _ => none) (fun _ => none) fun _ => some "boom")
      "p" "v1.0.0" "info")
    (RevInfo.mk "v1.0.0" "n" "s" 0) "boom" rfl (by decide) rfl (by decide)

/-- C10 (confirmed): in the GoMod producer, on a disk miss the manifest
checksum verification runs on the backend's bytes unconditionally — also
when the backend returned an error and the bytes are nil, in which case
the algorithm-1 hash of the empty content is checked under key
(path, version+"/go.mod"): when that check is non-fatal the backend error
is returned to the caller but the store update (including a possible
append of the empty-content hash when the key had no entries) is kept;
when a recorded differing algorithm-1 hash is hit first, the failed fetch
aborts the process. -/
theorem goMod_checks_despite_backend_error (pr : Preds)
    (jdec : List Char → Option RevInfo) (enc : RevInfo → List Char)
    (hash1 : List Char → String) (bstat : String → Except String RevInfo)
    (bgomod : String → Except String (List Char)) (quiet : Bool)
    (path rev f0 e : String) (info : RevInfo) (w w2 : CRWorld)
    (hgkey : cacheLookup w.cache ("gomod:" ++ rev) = none)
    (hgm : readDiskGoMod pr w.fs hash1 w.gosum path rev = ⟨f0, none, none, w.gosum⟩)
    (hstat : statOp pr jdec enc bstat quiet path rev w = (.ok info, w2))
    (hbg : bgomod info.version = .error e) :
    ((∀ vh, (checkGoMod hash1 w2.gosum path info.version []).1 ≠ .mismatch vh) →
      ∃ w3, goModOp pr jdec enc hash1 bstat bgomod quiet path rev w = .ok (.error e, w3) ∧
        w3.gosum = (checkGoMod hash1 w2.gosum path info.version []).2)
    ∧ (∀ vh, (checkGoMod hash1 w2.gosum path info.version []).1 = .mismatch vh →
      ∃ m, goModOp pr jdec enc hash1 bstat bgomod quiet path rev w = .error m)
    ∧ (w2.gosum.enabled = true →
      sumLookup w2.gosum.m (Version.mk path (info.version ++ "/go.mod")) = [] →
      (checkGoMod hash1 w2.gosum path info.version []).2.m =
        sumAppend w2.gosum.m (Version.mk path (info.version ++ "/go.mod")) (hash1 [])) := by
  refine ⟨?_, ?_, ?_⟩
  · intro hnm
    rcases hc : (checkGoMod hash1 w2.gosum path info.version []).1 with _ | _ | vh | _ | _
    · simp only [goModOp, hgkey, hgm, hstat, hbg, hc]
      exact ⟨_, rfl, rfl⟩
    · simp only [goModOp, hgkey, hgm, hstat, hbg, hc]
      exact ⟨_, rfl, rfl⟩
    · exact absurd hc (hnm vh)
    · simp only [goModOp, hgkey, hgm, hstat, hbg, hc]
      exact ⟨_, rfl, rfl⟩
    · simp only [goModOp, hgkey, hgm, hstat, hbg, hc]
      exact ⟨_, rfl, rfl⟩
  · intro vh hc
    simp only [goModOp, hgkey, hgm, hstat, hbg, hc]
    exact ⟨_, rfl⟩
  · intro hen hnil
    unfold checkGoMod
    rw [checkOneSum_enabled_eq _ _ _ hen, hnil]
    simp [scanHashes]

/-- C10 witness: a failed fetch on an enabled empty store checks and
appends the algorithm-1 hash of the empty content under the /go.mod
key. -/
theorem goMod_checks_despite_backend_error_witness :
    (cacheLookup ([] : List (String × CVal)) ("gomod:" ++ "v1.0.0") = none ∧
      (fun _ : String => Except.error (ε := String) (α := List Char) "netfail") "v1.0.0" =
        .error "netfail") ∧
    ((GoSumState.mk [] true "").enabled = true ∧
      (checkGoMod (fun _ => "h1:EMPTY")
        ((statOp predsWit (fun _ => none) (fun _ => [])
          (fun _ => .ok (RevInfo.mk "v1.0.0" "n" "s" 0)) true "p" "v1.0.0"
          (CRWorld.mk [] (FS.mk "" (fun _ => none) (fun _ => none) fun _ => none)
            (GoSumState.mk [] true "") [])).2).gosum "p" "v1.0.0" []).2.m =
        sumAppend ((statOp predsWit (fun _ => none) (fun _ => [])
          (fun _ => .ok (RevInfo.mk "v1.0.0" "n" "s" 0)) true "p" "v1.0.0"
          (CRWorld.mk [] (FS.mk "" (fun _ => none) (fun _ => none) fun _ => none)
            (GoSumState.mk [] true "") [])).2).gosum.m
          (Version.mk "p" ("v1.0.0" ++ "/go.mod")) ((fun _ => "h1:EMPTY") ([] : List Char))) :=
  ⟨⟨rfl, rfl⟩,
    ⟨rfl,
      (goMod_checks_despite_backend_error predsWit (fun _ => none) (fun _ => [])
        (fun _ => "h1:EMPTY") (fun _ => .ok (RevInfo.mk "v1.0.0" "n" "s" 0))
        (fun _ => .error "netfail") true "p" "v1.0.0" "" "netfail"
        (RevInfo.mk "v1.0.0" "n" "s" 0)
        (CRWorld.mk [] (FS.mk "" (fun _ => none) (fun _ => none) fun _ => none)
          (GoSumState.mk [] true "") [])
        ((statOp predsWit (fun _ => none) (fun _ => [])
          (fun _ => .ok (RevInfo.mk "v1.0.0" "n" "s" 0)) true "p" "v1.0.0"
          (CRWorld.mk [] (FS.mk "" (fun _ => none) (fun _ => none) fun _ => none)
            (GoSumState.mk [] true "") [])).2)
        rfl rfl rfl rfl).2.2 rfl (by decide)⟩⟩

/-! ## The Downloader (fetch.go): downloadZip -/

/-- File-system events of downloadZip, in order: the backend produced the
temp zip, the deferred `os.Remove(tmpfile)` ran (only on ordinary returns
after the fetch — `base.Fatalf` exits without running defers), the target
zip was created (`os.Create`), the sibling ziphash file was written. -/
inductive DZEv where
  | fetchedTmp
  | removedTmp
  | createdTarget
  | wroteTargetHash
deriving DecidableEq, Repr

/-- Outcome of downloadZip: ordinary error return, process abort from the
checkOneSum mismatch, or success. -/
inductive DZOut where
  | err (e : String)
  | fatal (vh : String)
  | ok
deriving DecidableEq, Repr

/-- Results of the external collaborators and I/O steps of downloadZip, in
source order: repository lookup, `repo.Zip`, `zip.OpenReader` (the entry
names on success), `dirhash.HashZip`, `os.Open(tmpfile)`,
`os.Create(target)`, `io.Copy`, `w.Close`, and the ziphash
`ioutil.WriteFile`. -/
structure DZParams where
  lookupErr : Option String
  zipErr : Option String
  openEntries : Except String (List String)
  hashRes : Except String String
  openTmpErr : Option String
  createErr : Option String
  copyErr : Option String
  closeErr : Option String
  writeHashErr : Option String
deriving Repr

/-- Model of `downloadZip(mod, target)` from fetch.go: lookup and fetch the
zip into a temp file; verify every archive entry name has the
`path@version` head (the diagnostic prints that string minus its last
character, as the source does); hash the zip; `checkOneSum` before any
publication (its mismatch is `base.Fatalf`, which skips the deferred temp
removal); then copy to the target and write the sibling hash file. -/
def downloadZip (mod : Version) (st : GoSumState) (p : DZParams) :
    DZOut × GoSumState × List DZEv :=
  match p.lookupErr with
  | some e => (.err e, st, [])
  | none =>
  match p.zipErr with
  | some e => (.err e, st, [])
  | none =>
  match p.openEntries with
  | .error e => (.err e, st, [.fetchedTmp, .removedTmp])
  | .ok entries =>
    let pre := mod.path ++ "@" ++ mod.version
    match entries.find? fun name => !strHasPre name pre with
    | some bad =>
      (.err ("zip for " ++ strTakeN pre (pre.data.length - 1) ++
        " has unexpected file " ++ bad), st, [.fetchedTmp, .removedTmp])
    | none =>
    match p.hashRes with
    | .error e => (.err e, st, [.fetchedTmp, .removedTmp])
    | .ok hash =>
      match checkOneSum st mod hash with
      | (.mismatch vh, st2) => (.fatal vh, st2, [.fetchedTmp])
      | (_, st2) =>
        match p.openTmpErr with
        | some e => (.err e, st2, [.fetchedTmp, .removedTmp])
        | none =>
        match p.createErr with
        | some e => (.err e, st2, [.fetchedTmp, .removedTmp])
        | none =>
        match p.copyErr with
        | some e => (.err ("copying: " ++ e), st2,
            [.fetchedTmp, .createdTarget, .removedTmp])
        | none =>
        match p.closeErr with
        | some e => (.err e, st2, [.fetchedTmp, .createdTarget, .removedTmp])
        | none =>
        match p.writeHashErr with
        | some e => (.err e, st2, [.fetchedTmp, .createdTarget, .removedTmp])
        | none => (.ok, st2, [.fetchedTmp, .createdTarget, .wroteTargetHash, .removedTmp])

/-- C2 (corrected): downloadZip never publishes a tainted artifact.  On a
zip shape violation the function returns an error with the target zip and
ziphash never created — but the deferred cleanup removes the temp file
too; on a checksum mismatch the process aborts before any target write,
leaving the temp file (defers are skipped by the fatal exit); and in
general the target is created and the hash written only in runs where
every archive entry carries the `path@version` head and checkOneSum did
not abort. -/
theorem downloadZip_gate (mod : Version) (st : GoSumState) (p : DZParams) :
    (∀ entries bad, p.lookupErr = none → p.zipErr = none →
      p.openEntries = .ok entries →
      entries.find? (fun name => !strHasPre name (mod.path ++ "@" ++ mod.version)) =
        some bad →
      downloadZip mod st p =
        (.err ("zip for " ++
          strTakeN (mod.path ++ "@" ++ mod.version)
            ((mod.path ++ "@" ++ mod.version).data.length - 1) ++
          " has unexpected file " ++ bad), st, [.fetchedTmp, .removedTmp]))
    ∧ (∀ entries h vh st2, p.lookupErr = none → p.zipErr = none →
      p.openEntries = .ok entries →
      entries.find? (fun name => !strHasPre name (mod.path ++ "@" ++ mod.version)) = none →
      p.hashRes = .ok h →
      checkOneSum st mod h = (.mismatch vh, st2) →
      downloadZip mod st p = (.fatal vh, st2, [.fetchedTmp]))
    ∧ (∀ entries h vh,
      (DZEv.createdTarget ∈ (downloadZip mod st p).2.2 ∨
        DZEv.wroteTargetHash ∈ (downloadZip mod st p).2.2) →
      (p.openEntries = .ok entries →
        entries.find? (fun name => !strHasPre name (mod.path ++ "@" ++ mod.version)) = none)
      ∧ (p.hashRes = .ok h → (checkOneSum st mod h).1 ≠ .mismatch vh)) := by
  refine ⟨?_, ?_, ?_⟩
  · intro entries bad hl hz hoe hbad
    simp only [downloadZip, hl, hz, hoe, hbad]
  · intro entries h vh st2 hl hz hoe hgood hh hcs
    simp only [downloadZip, hl, hz, hoe, hgood, hh, hcs]
  · intro entries h vh hmem
    rcases hl : p.lookupErr with _ | e
    · rcases hz : p.zipErr with _ | e
      · rcases hoe : p.openEntries with e | entries2
        · simp only [downloadZip, hl, hz, hoe] at hmem
          simp at hmem
        · rcases hfb : entries2.find?
              (fun name => !strHasPre name (mod.path ++ "@" ++ mod.version)) with _ | bad
          · rcases hhr : p.hashRes with e | h2
            · simp only [downloadZip, hl, hz, hoe, hfb, hhr] at hmem
              simp at hmem
            · have hconc1 : Except.ok (ε := String) entries2 = Except.ok entries →
                  entries.find?
                    (fun name => !strHasPre name (mod.path ++ "@" ++ mod.version)) = none := by
                intro hoe2
                rw [← Except.ok.inj hoe2]
                exact hfb
              rcases hcs : checkOneSum st mod h2 with ⟨sc, st2⟩
              have hconc2 : sc ≠ SumCheck.mismatch vh →
                  (Except.ok (ε := String) h2 = Except.ok h →
                    (checkOneSum st mod h).1 ≠ .mismatch vh) := by
                intro hsc hhr2 hx
                rw [← Except.ok.inj hhr2, hcs] at hx
                exact hsc hx
              cases sc with
              | disabled => exact ⟨hconc1, hconc2 (by intro hx; cases hx)⟩
              | verified => exact ⟨hconc1, hconc2 (by intro hx; cases hx)⟩
              | warned => exact ⟨hconc1, hconc2 (by intro hx; cases hx)⟩
              | added => exact ⟨hconc1, hconc2 (by intro hx; cases hx)⟩
              | mismatch vh2 =>
                simp only [downloadZip, hl, hz, hoe, hfb, hhr, hcs] at hmem
                simp at hmem
          · simp only [downloadZip, hl, hz, hoe, hfb] at hmem
            simp at hmem
      · simp only [downloadZip, hl, hz] at hmem
        simp at hmem
    · simp only [downloadZip, hl] at hmem
      simp at hmem

/-- C2 counterexample: for the shape violation the claim's "leaving only
the temp file" fails — the deferred cleanup removes the temp file on the
ordinary error return, while the target files are indeed never created. -/
theorem downloadZip_claim_counterexample :
    (let p : DZParams := ⟨none, none, .ok ["../evil"], .ok "h1:Z",
      none, none, none, none, none⟩
    let r := downloadZip (Version.mk "m.io/a" "v1.0.0") (GoSumState.mk [] true "") p
    DZEv.createdTarget ∉ r.2.2 ∧ DZEv.wroteTargetHash ∉ r.2.2 ∧
    DZEv.removedTmp ∈ r.2.2 ∧ (∃ e, r.1 = .err e)) := by
  refine ⟨by decide, by decide, by decide, ⟨_, rfl⟩⟩

/-- C2 witness: the fatal-mismatch part on a concrete store: the process
aborts with no target zip or ziphash created and the temp file kept. -/
theorem downloadZip_gate_witness :
    (checkOneSum (GoSumState.mk [(Version.mk "m.io/a" "v1.0.0", ["h1:AAA"])] true "")
        (Version.mk "m.io/a" "v1.0.0") "h1:BBB" =
      (.mismatch "h1:AAA",
        GoSumState.mk [(Version.mk "m.io/a" "v1.0.0", ["h1:AAA"])] true "")) ∧
    downloadZip (Version.mk "m.io/a" "v1.0.0")
        (GoSumState.mk [(Version.mk "m.io/a" "v1.0.0", ["h1:AAA"])] true "")
        ⟨none, none, .ok ["m.io/a@v1.0.0/go.mod"], .ok "h1:BBB",
          none, none, none, none, none⟩ =
      (.fatal "h1:AAA",
        GoSumState.mk [(Version.mk "m.io/a" "v1.0.0", ["h1:AAA"])] true "",
        [.fetchedTmp]) :=
  ⟨by decide,
    (downloadZip_gate (Version.mk "m.io/a" "v1.0.0")
      (GoSumState.mk [(Version.mk "m.io/a" "v1.0.0", ["h1:AAA"])] true "")
      ⟨none, none, .ok ["m.io/a@v1.0.0/go.mod"], .ok "h1:BBB",
        none, none, none, none, none⟩).2.1
      ["m.io/a@v1.0.0/go.mod"] "h1:BBB" "h1:AAA"
      (GoSumState.mk [(Version.mk "m.io/a" "v1.0.0", ["h1:AAA"])] true "")
      rfl rfl rfl (by decide) rfl (by decide)⟩

end VGo
